import Mathlib

/-!
Verification of the subtitle pipeline of this repository.

Embedded operations (Python strings are modelled as `List Char`):
* `validate_srt`            — src/app.py, lines 171-208
* `translate_text`          — src/translator.py, lines 17-41
* `translate_srt_content`   — src/translator.py, lines 44-94
* `search_all`              — src/sources.py, lines 631-680 (`SourceManager.search_all`)
* `get_first_subtitle`      — src/sources.py, lines 682-710 (`SourceManager.get_first_subtitle`)
* `serveCacheStep`          — src/app.py, lines 395-456 (the cache effect of
                              `serve_translated_with_config`)

Effects are made explicit: the translation backend and the subtitle download
are parameters (`Translator`, a download function), the nondeterministic
completion order of the thread pool in `search_all` is the order of the
`outcomes` parameter, and the per-request cache mutation is explicit state
passing on an association list.
-/

/-- ASCII whitespace: the characters stripped by Python `str.strip()` and
matched by the regex class `\s`, as they occur in subtitle data. -/
def isPySpace (c : Char) : Bool :=
  c = ' ' || c = '\t' || c = '\n' || c = '\r' || c = '\x0b' || c = '\x0c'

/-- Python `s.strip()`: drop leading and trailing whitespace. -/
def pyStrip (s : List Char) : List Char :=
  ((s.dropWhile isPySpace).reverse.dropWhile isPySpace).reverse

/-- ASCII letters: the characters kept by `re.sub(r'[^a-zA-Z]', '', text)`
in src/translator.py line 33. -/
def isAsciiAlpha (c : Char) : Bool :=
  ('a' ≤ c && c ≤ 'z') || ('A' ≤ c && c ≤ 'Z')

/-- `content.replace('\r\n', '\n').replace('\r', '\n')` (src/app.py line 179),
fused into one left-to-right pass: every `\r\n` pair and every lone `\r`
becomes `\n`. -/
def normalizeNewlines : List Char → List Char
  | [] => []
  | [c] => if c = '\r' then ['\n'] else [c]
  | c :: d :: rest =>
    if c = '\r' then
      if d = '\n' then '\n' :: normalizeNewlines rest
      else '\n' :: normalizeNewlines (d :: rest)
    else c :: normalizeNewlines (d :: rest)

/-- Prepend a character to the first piece of a split result. -/
def consHead (c : Char) : List (List Char) → List (List Char)
  | [] => [[c]]
  | l :: ls => (c :: l) :: ls

/-- Python `s.split('\n')`. -/
def splitOnNl : List Char → List (List Char)
  | [] => [[]]
  | c :: rest =>
    if c = '\n' then [] :: splitOnNl rest
    else consHead c (splitOnNl rest)

/-- Split `cs` just after its last newline: `some (p, q)` with `cs = p ++ q`
and `p` ending in that newline; `none` when `cs` contains no newline. -/
def splitAtLastNl : List Char → Option (List Char × List Char)
  | [] => none
  | c :: rest =>
    match splitAtLastNl rest with
    | some (p, q) => some (c :: p, q)
    | none => if c = '\n' then some ([c], rest) else none

/-- Fuelled scanner for `re.split(r'\n\s*\n', s)`.  A match of the pattern
starts at a newline whose following maximal whitespace run contains another
newline; the greedy `\s*` makes the match end just after the last newline of
that run.  Fuel `s.length` is always sufficient (see `splitBlocksF_fuel`). -/
def splitBlocksF : Nat → List Char → List (List Char)
  | 0, s => [s]
  | _ + 1, [] => [[]]
  | f + 1, c :: rest =>
    if c = '\n' then
      match splitAtLastNl (rest.takeWhile isPySpace) with
      | some (_, q) => [] :: splitBlocksF f (q ++ rest.dropWhile isPySpace)
      | none => consHead c (splitBlocksF f rest)
    else consHead c (splitBlocksF f rest)

/-- `re.split(r'\n\s*\n', s)`, the block splitter used by src/app.py line 182
and src/translator.py line 59. -/
def splitBlocks (s : List Char) : List (List Char) :=
  splitBlocksF s.length s

/-- `'-->' in timestamp` (src/app.py line 196). -/
def hasArrow (s : List Char) : Bool :=
  s.tails.any (fun t => List.isPrefixOf ['-', '-', '>'] t)

/-- The decimal digit character of `n % 10`. -/
def digitChar (n : Nat) : Char :=
  Char.ofNat (48 + n % 10)

/-- Fuelled decimal rendering; fuel `n + 1` always suffices. -/
def natCharsAux : Nat → Nat → List Char → List Char
  | 0, _, acc => acc
  | f + 1, n, acc =>
    if n < 10 then digitChar n :: acc
    else natCharsAux f (n / 10) (digitChar n :: acc)

/-- Python `str(n)` for a natural number — used for the reassigned block
index `len(valid_blocks) + 1` in src/app.py line 203. -/
def natChars (n : Nat) : List Char :=
  natCharsAux (n + 1) n []

/-- A surviving subtitle block: the stripped timestamp line and the stripped
joined text lines.  The original index line is not recorded because
`validate_srt` never uses it for output (src/app.py lines 191-193 compute a
repaired index that is dead code; line 203 renumbers unconditionally). -/
structure SrtBlock where
  timestamp : List Char
  text : List Char
deriving DecidableEq

/-- The per-block validation of src/app.py lines 186-201, applied to the
lines of one candidate block: `none` when the block is dropped (fewer than 3
lines, no `-->` in the stripped second line, or empty stripped text),
otherwise the stripped timestamp and text.  The `try/except` of the source
can never fire: every operation in the body is total. -/
def blockResult : List (List Char) → Option SrtBlock
  | l0 :: l1 :: l2 :: rest =>
    let _index := l0
    let timestamp := pyStrip l1
    if hasArrow timestamp then
      let text := pyStrip (List.intercalate ['\n'] (l2 :: rest))
      if text = [] then none else some ⟨timestamp, text⟩
    else none
  | _ => none

/-- `f"{len(valid_blocks) + 1}\n{timestamp}\n{text}"` (src/app.py line 203). -/
def renderBlock (i : Nat) (b : SrtBlock) : List Char :=
  natChars i ++ '\n' :: b.timestamp ++ '\n' :: b.text

/-- Render a run of surviving blocks with consecutive indices from `start`. -/
def renderAll (start : Nat) : List SrtBlock → List (List Char)
  | [] => []
  | b :: bs => renderBlock start b :: renderAll (start + 1) bs

/-- The surviving blocks of a candidate block list, in order. -/
def collectBlocks (blocks : List (List Char)) : List SrtBlock :=
  blocks.filterMap (fun b => blockResult (splitOnNl (pyStrip b)))

/-- The accumulation loop of src/app.py lines 185-206: kept blocks are
appended already rendered, numbered by the current length of the
accumulator. -/
def validLoop : List (List Char) → List (List Char) → List (List Char)
  | [], acc => acc
  | b :: rest, acc =>
    match blockResult (splitOnNl (pyStrip b)) with
    | none => validLoop rest acc
    | some sb => validLoop rest (acc ++ [renderBlock (acc.length + 1) sb])

/-- `validate_srt` (src/app.py lines 171-208). -/
def validate_srt (content : List Char) : List Char :=
  if content = [] then []
  else
    let c := normalizeNewlines content
    let blocks := splitBlocks (pyStrip c)
    List.intercalate ['\n', '\n'] (validLoop blocks []) ++ ['\n']

/-- The first line of a rendered piece of text. -/
def firstLine (s : List Char) : List Char :=
  s.takeWhile (fun c => decide (c ≠ '\n'))

/-- No occurrence of the separator pattern `\n\s*\n` starts inside `s`:
after every newline of `s`, the following maximal whitespace run (within
`s`) contains no newline. -/
def noSep : List Char → Prop
  | [] => True
  | c :: rest => (c = '\n' → '\n' ∉ rest.takeWhile isPySpace) ∧ noSep rest

/-! ### Translation adapter (src/translator.py) -/

/-- The external translation backend: `GoogleTranslator(...).translate`.
`Except.error` models a raised exception, `Except.ok` the returned string
(possibly empty, which the source treats as falsy). -/
abbrev Translator : Type :=
  List Char → Except Unit (List Char)

/-- A backend that fails (raises) on every call. -/
def failingTranslator : Translator :=
  fun _ => Except.error ()

/-- `translate_text` (src/translator.py lines 17-41), instrumented with the
number of backend invocations (second component).  Returns the input and
performs no call when the text is empty/whitespace or has fewer than 3
alphabetic characters; returns the input on backend failure or on an empty
backend result. -/
def translate_textC (tr : Translator) (text : List Char) : List Char × Nat :=
  if text = [] || pyStrip text = [] then (text, 0)
  else if (text.filter isAsciiAlpha).length < 3 then (text, 0)
  else
    match tr text with
    | Except.ok result => (if result = [] then text else result, 1)
    | Except.error _ => (text, 1)

/-- The value returned by `translate_text`. -/
def translate_text (tr : Translator) (text : List Char) : List Char :=
  (translate_textC tr text).1

/-- The loop body of `translate_srt_content` (src/translator.py lines
62-91) for one candidate block: blocks with fewer than 3 lines are kept
verbatim; otherwise the block is rebuilt from the stripped index line, the
stripped timestamp line and the (possibly translated) joined text lines.
The per-block `try/except` can never fire: the body is total. -/
def translateBlock (tr : Translator) (block : List Char) : List Char :=
  match splitOnNl (pyStrip block) with
  | l0 :: l1 :: l2 :: rest =>
    let index := pyStrip l0
    let timestamp := pyStrip l1
    let textLines := List.intercalate ['\n'] (l2 :: rest)
    let translated :=
      if pyStrip textLines = [] then textLines
      else translate_text tr textLines
    index ++ '\n' :: timestamp ++ '\n' :: translated
  | _ => block

/-- `translate_srt_content` (src/translator.py lines 44-94): process every
block and rejoin with one blank line. -/
def translate_srt_content (tr : Translator) (srt : List Char) : List Char :=
  if srt = [] then []
  else
    List.intercalate ['\n', '\n']
      ((splitBlocks (pyStrip srt)).map (translateBlock tr))

/-- A block in the exact shape `translate_srt_content` rebuilds: no
surrounding whitespace, and (when it has at least 3 lines) index and
timestamp lines that stripping leaves unchanged. -/
def blockCanonical (b : List Char) : Prop :=
  pyStrip b = b ∧ (3 ≤ (splitOnNl b).length →
    pyStrip ((splitOnNl b).getD 0 []) = (splitOnNl b).getD 0 [] ∧
    pyStrip ((splitOnNl b).getD 1 []) = (splitOnNl b).getD 1 [])

instance (b : List Char) : Decidable (blockCanonical b) := by
  unfold blockCanonical
  exact instDecidableAnd

/-- Subtitle text in canonical form: no surrounding whitespace, blocks
separated by exactly one blank line (so splitting and rejoining is the
identity), and every block canonical. -/
def canonicalSrt (s : List Char) : Prop :=
  pyStrip s = s ∧ List.intercalate ['\n', '\n'] (splitBlocks s) = s ∧
    ∀ b ∈ splitBlocks s, blockCanonical b

instance (s : List Char) : Decidable (canonicalSrt s) := by
  unfold canonicalSrt
  exact instDecidableAnd

/-! ### Source aggregation (src/sources.py) -/

/-- A subtitle candidate as produced by the provider adapters
(src/sources.py, e.g. lines 76-82): source name, download URL, title,
language, and an optional numeric rating (`x.get('rating', 0)` defaults a
missing rating to 0 when sorting). -/
structure Cand where
  source : List Char
  url : List Char
  title : List Char
  lang : List Char
  rating : Option ℚ
deriving DecidableEq

/-- The sort key `x.get('rating', 0)` (src/sources.py line 678). -/
def ratingKey (c : Cand) : ℚ :=
  c.rating.getD 0

/-- Stable descending insertion: skip over strictly higher-rated elements,
stop before the first element whose rating is not higher. -/
def insertByRating (c : Cand) : List Cand → List Cand
  | [] => [c]
  | d :: ds =>
    if ratingKey c < ratingKey d then d :: insertByRating c ds
    else c :: d :: ds

/-- `all_results.sort(key=lambda x: x.get('rating', 0), reverse=True)`
(src/sources.py line 678): the stable descending sort by rating.  Python's
sort is stable and `reverse=True` keeps ties in original order; this
insertion sort is that unique stable descending sort. -/
def sortByRatingDesc : List Cand → List Cand
  | [] => []
  | c :: cs => insertByRating c (sortByRatingDesc cs)

/-- One completed adapter search: `Except.error` models a raised exception
(caught and treated as no candidates), `Except.ok` the returned list. -/
abbrev AdapterOutcome : Type :=
  List (Except Unit (List Cand))

/-- The collection loop of src/sources.py lines 661-673, over the adapter
outcomes in completion order: failures contribute nothing, and collection
stops early once `max_results = 5` candidates have been gathered. -/
def collectResults : List (Except Unit (List Cand)) → List Cand → List Cand
  | [], acc => acc
  | o :: rest, acc =>
    match o with
    | Except.error _ => collectResults rest acc
    | Except.ok rs =>
      let acc' := acc ++ rs
      if 5 ≤ acc'.length then acc' else collectResults rest acc'

/-- `SourceManager.search_all` (src/sources.py lines 631-680), with the
thread pool's completion order made explicit as the order of `outcomes`:
collect with early exit, sort by descending rating, truncate to
`max_results = 5`. -/
def search_all (outcomes : List (Except Unit (List Cand))) : List Cand :=
  (sortByRatingDesc (collectResults outcomes [])).take 5

/-- The concatenation of all successfully returned candidate lists, in
completion order. -/
def successUnion : List (Except Unit (List Cand)) → List Cand
  | [] => []
  | Except.ok rs :: rest => rs ++ successUnion rest
  | Except.error _ :: rest => successUnion rest

/-- The walk of src/sources.py lines 691-709 over the ranked candidates:
skip candidates without a URL; download with the candidate's named source
when it is registered (every source inherits the one `download` of
`SubtitleSource`, so both downloads are the same function `dl`); accept
content longer than 100 characters; otherwise retry with the base
downloader and accept under the same test; else continue. -/
def getFirstWalk (registered : List Char → Bool) (dl : List Char → Option (List Char)) :
    List Cand → Option (List Char)
  | [] => none
  | r :: rest =>
    if r.url = [] then getFirstWalk registered dl rest
    else
      let fallback :=
        match dl r.url with
        | some c => if 100 < c.length then some c else getFirstWalk registered dl rest
        | none => getFirstWalk registered dl rest
      if registered r.source then
        match dl r.url with
        | some c => if 100 < c.length then some c else fallback
        | none => fallback
      else fallback

/-- `SourceManager.get_first_subtitle` (src/sources.py lines 682-710). -/
def get_first_subtitle (registered : List Char → Bool)
    (dl : List Char → Option (List Char))
    (outcomes : List (Except Unit (List Cand))) : Option (List Char) :=
  getFirstWalk registered dl (search_all outcomes)

/-- The usable download of one candidate: its content when the download
succeeds with more than 100 characters, else `none`. -/
def usableDownload (dl : List Char → Option (List Char)) (c : Cand) :
    Option (List Char) :=
  match dl c.url with
  | some t => if 100 < t.length then some t else none
  | none => none

/-! ### Subtitle cache (src/app.py) -/

/-- The in-memory cache `subtitle_cache` (src/app.py line 74), as an
association list in insertion order (a Python dict). -/
abbrev SubCache : Type :=
  List (List Char × List Char)

/-- `cache_key in subtitle_cache` / `subtitle_cache[cache_key]`. -/
def cacheLookup (cache : SubCache) (k : List Char) : Option (List Char) :=
  (cache.find? (fun kv => decide (kv.1 = k))).map Prod.snd

/-- `subtitle_cache[cache_key] = v`: replace in place when the key exists,
otherwise append (Python dict assignment preserves insertion order). -/
def dictInsert (cache : SubCache) (k v : List Char) : SubCache :=
  if cache.any (fun kv => decide (kv.1 = k)) then
    cache.map (fun kv => if kv.1 = k then (k, v) else kv)
  else cache ++ [(k, v)]

/-- The cache effect of one request through
`serve_translated_with_config` (src/app.py lines 395-456): on a cache hit
the cache is returned unchanged; when the English lookup yields nothing the
error response is served without touching the cache; otherwise the
translation (or, when it raised, returned nothing or returned the empty
string, the English fallback) is stored under the key. -/
def serveCacheStep (cache : SubCache) (key : List Char)
    (english : Option (List Char)) (translated : Option (List Char)) : SubCache :=
  if (cacheLookup cache key).isSome then cache
  else
    match english with
    | none => cache
    | some eng =>
      let value :=
        match translated with
        | some t => if t = [] then eng else t
        | none => eng
      dictInsert cache key value

/-- The hypothesis of the round-trip claim: nonempty text that parses into
at least 3 candidate blocks, all of which survive validation. -/
def wellFormedSrt (s : List Char) : Prop :=
  s ≠ [] ∧ 3 ≤ (splitBlocks (pyStrip (normalizeNewlines s))).length ∧
    ∀ b ∈ splitBlocks (pyStrip (normalizeNewlines s)),
      (blockResult (splitOnNl (pyStrip b))).isSome = true

instance (s : List Char) : Decidable (wellFormedSrt s) := by
  unfold wellFormedSrt
  exact instDecidableAnd

/-! ### Helper lemmas: whitespace and stripping -/

theorem dropWhile_head_false {p : Char → Bool} {l : List Char} {c : Char}
    {cs : List Char} (h : l.dropWhile p = c :: cs) : p c = false := by
  induction l with
  | nil => simp at h
  | cons d l ih =>
    rw [List.dropWhile_cons] at h
    by_cases hd : p d = true
    · rw [if_pos hd] at h
      exact ih h
    · rw [if_neg hd] at h
      injection h with h1 _
      subst h1
      simpa using hd

theorem dropWhile_eq_self_of_head {p : Char → Bool} {l : List Char}
    (h : ∀ c, l.head? = some c → p c = false) : l.dropWhile p = l := by
  cases l with
  | nil => rfl
  | cons d l =>
    rw [List.dropWhile_cons, if_neg (by simp [h d rfl])]

theorem takeWhile_prefix_append (p : Char → Bool) (a b : List Char) :
    a.takeWhile p <+: (a ++ b).takeWhile p := by
  induction a with
  | nil => simp
  | cons d a ih =>
    rw [List.cons_append, List.takeWhile_cons, List.takeWhile_cons]
    by_cases hd : p d = true
    · rw [if_pos hd, if_pos hd]
      rcases ih with ⟨t, ht⟩
      exact ⟨t, by rw [List.cons_append, ht]⟩
    · rw [if_neg hd]
      simp

theorem nl_not_takeWhile_append {a b : List Char}
    (ha : '\n' ∉ a.takeWhile isPySpace)
    (hb : ∀ c, b.head? = some c → isPySpace c = false) :
    '\n' ∉ (a ++ b).takeWhile isPySpace := by
  induction a with
  | nil =>
    cases b with
    | nil => simp
    | cons d b =>
      rw [List.nil_append, List.takeWhile_cons, if_neg (by simp [hb d rfl])]
      simp
  | cons d a ih =>
    rw [List.cons_append, List.takeWhile_cons]
    by_cases hd : isPySpace d = true
    · rw [if_pos hd]
      rw [List.takeWhile_cons, if_pos hd] at ha
      intro h
      rcases List.mem_cons.1 h with h1 | h2
      · exact ha (h1 ▸ List.mem_cons_self _ _)
      · exact ih (fun hm => ha (List.mem_cons_of_mem _ hm)) h2
    · rw [if_neg hd]
      simp

theorem takeWhile_append_stop {p : Char → Bool} {a : List Char} (b : List Char)
    (h : ∃ x ∈ a, p x = false) : (a ++ b).takeWhile p = a.takeWhile p := by
  induction a with
  | nil =>
    rcases h with ⟨x, hx, _⟩
    simp at hx
  | cons d a ih =>
    rw [List.cons_append, List.takeWhile_cons, List.takeWhile_cons]
    by_cases hd : p d = true
    · rw [if_pos hd, if_pos hd]
      rcases h with ⟨x, hx, hpx⟩
      rcases List.mem_cons.1 hx with rfl | hx'
      · rw [hd] at hpx
        cases hpx
      · rw [ih ⟨x, hx', hpx⟩]
    · rw [if_neg hd, if_neg hd]

theorem pyStrip_last_not_space {s : List Char} {c : Char}
    (h : (pyStrip s).getLast? = some c) : isPySpace c = false := by
  unfold pyStrip at h
  rw [List.getLast?_reverse] at h
  rcases heq : (s.dropWhile isPySpace).reverse.dropWhile isPySpace with _ | ⟨d, t⟩
  · rw [heq] at h
    simp at h
  · rw [heq] at h
    simp only [List.head?_cons, Option.some.injEq] at h
    subst h
    exact dropWhile_head_false heq

theorem pyStrip_prefix_dropWhile (s : List Char) :
    pyStrip s <+: s.dropWhile isPySpace := by
  unfold pyStrip
  have h := List.reverse_prefix.2
    (List.dropWhile_suffix (l := (s.dropWhile isPySpace).reverse) isPySpace)
  rwa [List.reverse_reverse] at h

theorem pyStrip_head_not_space {s : List Char} {c : Char}
    (h : (pyStrip s).head? = some c) : isPySpace c = false := by
  rcases pyStrip_prefix_dropWhile s with ⟨t, ht⟩
  rcases hps : pyStrip s with _ | ⟨c', cs⟩
  · rw [hps] at h
    simp at h
  · rw [hps] at h ht
    simp only [List.head?_cons, Option.some.injEq] at h
    have hd : s.dropWhile isPySpace = c' :: (cs ++ t) := by
      rw [← ht, List.cons_append]
    have hc' := dropWhile_head_false hd
    rwa [h] at hc'

theorem pyStrip_eq_self {s : List Char}
    (h1 : ∀ c, s.head? = some c → isPySpace c = false)
    (h2 : ∀ c, s.getLast? = some c → isPySpace c = false) :
    pyStrip s = s := by
  unfold pyStrip
  rw [dropWhile_eq_self_of_head h1,
    dropWhile_eq_self_of_head (fun c hc => h2 c (by rwa [← List.head?_reverse])),
    List.reverse_reverse]

theorem pyStrip_idem (s : List Char) : pyStrip (pyStrip s) = pyStrip s := by
  rcases h : pyStrip s with _ | ⟨c, cs⟩
  · rfl
  · apply pyStrip_eq_self
    · intro d hd
      exact pyStrip_head_not_space (s := s) (h ▸ hd)
    · intro d hd
      exact pyStrip_last_not_space (s := s) (h ▸ hd)

theorem mem_pyStrip {s : List Char} {c : Char} (h : c ∈ pyStrip s) : c ∈ s := by
  unfold pyStrip at h
  rw [List.mem_reverse] at h
  have h2 : c ∈ (s.dropWhile isPySpace).reverse := (List.dropWhile_suffix _).subset h
  rw [List.mem_reverse] at h2
  exact (List.dropWhile_suffix _).subset h2

theorem pyStrip_append_nl {R : List Char}
    (h1 : ∀ c, R.head? = some c → isPySpace c = false)
    (h2 : ∀ c, R.getLast? = some c → isPySpace c = false) :
    pyStrip (R ++ ['\n']) = R := by
  cases R with
  | nil => rfl
  | cons r R' =>
    unfold pyStrip
    rw [dropWhile_eq_self_of_head (l := (r :: R') ++ ['\n'])
      (by intro c hc; simp only [List.cons_append, List.head?_cons,
        Option.some.injEq] at hc; exact hc ▸ h1 r rfl)]
    have hrev : ((r :: R') ++ ['\n']).reverse = '\n' :: (r :: R').reverse := by
      simp
    rw [hrev, List.dropWhile_cons, if_pos (by decide),
      dropWhile_eq_self_of_head (l := (r :: R').reverse)
        (fun c hc => h2 c (by rwa [List.head?_reverse] at hc)),
      List.reverse_reverse]

/-! ### Helper lemmas: line splitting and decimal rendering -/

theorem consHead_ne_nil (c : Char) (ls : List (List Char)) : consHead c ls ≠ [] := by
  cases ls <;> simp [consHead]

theorem splitOnNl_ne_nil (s : List Char) : splitOnNl s ≠ [] := by
  induction s with
  | nil => simp [splitOnNl]
  | cons c rest ih =>
    simp only [splitOnNl]
    by_cases h : c = '\n'
    · rw [if_pos h]
      simp
    · rw [if_neg h]
      exact consHead_ne_nil _ _

theorem intercalate_cons_cons (sep x y : List Char) (zs : List (List Char)) :
    List.intercalate sep (x :: y :: zs) = x ++ sep ++ List.intercalate sep (y :: zs) := by
  simp [List.intercalate, List.intersperse_cons_cons]

theorem intercalate_single (sep x : List Char) : List.intercalate sep [x] = x := by
  simp [List.intercalate]

theorem intercalate_consHead (c : Char) (ls : List (List Char)) (h : ls ≠ []) :
    List.intercalate ['\n'] (consHead c ls) = c :: List.intercalate ['\n'] ls := by
  cases ls with
  | nil => cases h rfl
  | cons l ls2 =>
    cases ls2 with
    | nil => simp [consHead, intercalate_single]
    | cons l2 ls3 => simp [consHead, intercalate_cons_cons]

theorem intercalate_splitOnNl (s : List Char) :
    List.intercalate ['\n'] (splitOnNl s) = s := by
  induction s with
  | nil => simp [splitOnNl, List.intercalate]
  | cons c rest ih =>
    simp only [splitOnNl]
    by_cases h : c = '\n'
    · rw [if_pos h]
      obtain ⟨l, ls, hsp⟩ := List.exists_cons_of_ne_nil (splitOnNl_ne_nil rest)
      rw [hsp, intercalate_cons_cons, ← hsp, ih, h]
      simp
    · rw [if_neg h, intercalate_consHead c _ (splitOnNl_ne_nil rest), ih]

theorem splitOnNl_of_not_mem {x : List Char} (h : '\n' ∉ x) : splitOnNl x = [x] := by
  induction x with
  | nil => rfl
  | cons c rest ih =>
    simp only [splitOnNl]
    rw [if_neg (fun hc => h (by rw [hc]; exact List.mem_cons_self _ _)),
      ih (fun hm => h (List.mem_cons_of_mem _ hm))]
    rfl

theorem splitOnNl_append {x y : List Char} (h : '\n' ∉ x) :
    splitOnNl (x ++ '\n' :: y) = x :: splitOnNl y := by
  induction x with
  | nil =>
    rw [List.nil_append]
    simp [splitOnNl]
  | cons c rest ih =>
    rw [List.cons_append]
    simp only [splitOnNl]
    rw [if_neg (fun hc => h (by rw [hc]; exact List.mem_cons_self _ _)),
      ih (fun hm => h (List.mem_cons_of_mem _ hm))]
    rfl

theorem no_nl_of_mem_splitOnNl {s l : List Char} (h : l ∈ splitOnNl s) :
    '\n' ∉ l := by
  induction s generalizing l with
  | nil =>
    simp only [splitOnNl, List.mem_singleton] at h
    subst h
    simp
  | cons c rest ih =>
    simp only [splitOnNl] at h
    by_cases hc : c = '\n'
    · rw [if_pos hc] at h
      rcases List.mem_cons.1 h with rfl | h2
      · simp
      · exact ih h2
    · rw [if_neg hc] at h
      obtain ⟨l0, ls, hsp⟩ := List.exists_cons_of_ne_nil (splitOnNl_ne_nil rest)
      rw [hsp] at h
      simp only [consHead] at h
      rcases List.mem_cons.1 h with rfl | h2
      · intro hm
        rcases List.mem_cons.1 hm with h3 | h4
        · exact hc h3.symm
        · exact ih (hsp ▸ List.mem_cons_self l0 ls) h4
      · exact ih (hsp ▸ List.mem_cons_of_mem _ h2)

theorem mem_of_mem_splitOnNl {s l : List Char} {c : Char}
    (hl : l ∈ splitOnNl s) (hc : c ∈ l) : c ∈ s := by
  induction s generalizing l with
  | nil =>
    simp only [splitOnNl, List.mem_singleton] at hl
    subst hl
    exact hc
  | cons d rest ih =>
    simp only [splitOnNl] at hl
    by_cases hd : d = '\n'
    · rw [if_pos hd] at hl
      rcases List.mem_cons.1 hl with rfl | h2
      · simp at hc
      · exact List.mem_cons_of_mem _ (ih h2 hc)
    · rw [if_neg hd] at hl
      obtain ⟨l0, ls, hsp⟩ := List.exists_cons_of_ne_nil (splitOnNl_ne_nil rest)
      rw [hsp] at hl
      simp only [consHead] at hl
      rcases List.mem_cons.1 hl with rfl | h2
      · rcases List.mem_cons.1 hc with rfl | h4
        · exact List.mem_cons_self _ _
        · exact List.mem_cons_of_mem _ (ih (hsp ▸ List.mem_cons_self l0 ls) h4)
      · exact List.mem_cons_of_mem _ (ih (hsp ▸ List.mem_cons_of_mem _ h2) hc)

theorem mem_intercalate_nl {ls : List (List Char)} {c : Char}
    (h : c ∈ List.intercalate ['\n'] ls) : c = '\n' ∨ ∃ l ∈ ls, c ∈ l := by
  induction ls with
  | nil => simp [List.intercalate] at h
  | cons l ls ih =>
    cases ls with
    | nil =>
      rw [intercalate_single] at h
      exact Or.inr ⟨l, List.mem_cons_self _ _, h⟩
    | cons l2 ls2 =>
      rw [intercalate_cons_cons] at h
      simp only [List.mem_append] at h
      rcases h with (h1 | h2) | h3
      · exact Or.inr ⟨l, List.mem_cons_self _ _, h1⟩
      · simp only [List.mem_singleton] at h2
        exact Or.inl h2
      · rcases ih h3 with h4 | ⟨l', hl', hc'⟩
        · exact Or.inl h4
        · exact Or.inr ⟨l', List.mem_cons_of_mem _ hl', hc'⟩

theorem cr_not_mem_normalizeNewlines (s : List Char) :
    '\r' ∉ normalizeNewlines s := by
  induction s using normalizeNewlines.induct with
  | case1 => simp [normalizeNewlines]
  | case2 => simp [normalizeNewlines]
  | case3 c hc =>
    simp only [normalizeNewlines, if_neg hc]
    intro hm
    rcases List.mem_singleton.1 hm with rfl
    exact hc rfl
  | case4 rest ih =>
    simp only [normalizeNewlines, if_pos rfl]
    intro hm
    rcases List.mem_cons.1 hm with h1 | h2
    · cases h1
    · exact ih h2
  | case5 d rest hd ih =>
    simp only [normalizeNewlines, if_pos rfl, if_neg hd]
    intro hm
    rcases List.mem_cons.1 hm with h1 | h2
    · cases h1
    · exact ih h2
  | case6 c d rest hc ih =>
    simp only [normalizeNewlines, if_neg hc]
    intro hm
    rcases List.mem_cons.1 hm with h1 | h2
    · exact hc h1.symm
    · exact ih h2

theorem normalizeNewlines_eq_self {s : List Char} (h : '\r' ∉ s) :
    normalizeNewlines s = s := by
  induction s using normalizeNewlines.induct with
  | case1 => rfl
  | case2 => simp at h
  | case3 c hc => simp [normalizeNewlines, if_neg hc]
  | case4 rest ih => simp at h
  | case5 d rest hd ih => simp at h
  | case6 c d rest hc ih =>
    simp only [normalizeNewlines, if_neg hc]
    rw [ih (fun hm => h (List.mem_cons_of_mem _ hm))]

theorem digitChar_not_space (n : Nat) : isPySpace (digitChar n) = false := by
  unfold digitChar
  have h : n % 10 < 10 := Nat.mod_lt _ (by norm_num)
  set m := n % 10 with hm
  interval_cases m <;> decide

theorem ne_nl_of_not_space {c : Char} (h : isPySpace c = false) : c ≠ '\n' := by
  intro hc
  subst hc
  exact absurd h (by decide)

theorem ne_cr_of_not_space {c : Char} (h : isPySpace c = false) : c ≠ '\r' := by
  intro hc
  subst hc
  exact absurd h (by decide)

theorem mem_natCharsAux {f n : Nat} {acc : List Char} {c : Char}
    (h : c ∈ natCharsAux f n acc) : (∃ k, c = digitChar k) ∨ c ∈ acc := by
  induction f generalizing n acc with
  | zero => exact Or.inr h
  | succ f ih =>
    simp only [natCharsAux] at h
    by_cases hn : n < 10
    · rw [if_pos hn] at h
      rcases List.mem_cons.1 h with rfl | h2
      · exact Or.inl ⟨n, rfl⟩
      · exact Or.inr h2
    · rw [if_neg hn] at h
      rcases ih h with h1 | h2
      · exact Or.inl h1
      · rcases List.mem_cons.1 h2 with rfl | h3
        · exact Or.inl ⟨n, rfl⟩
        · exact Or.inr h3

theorem mem_natChars_not_space {n : Nat} {c : Char} (h : c ∈ natChars n) :
    isPySpace c = false := by
  rcases mem_natCharsAux h with ⟨k, rfl⟩ | h2
  · exact digitChar_not_space k
  · simp at h2

theorem natCharsAux_ne_nil {f n : Nat} {acc : List Char}
    (h : 0 < f ∨ acc ≠ []) : natCharsAux f n acc ≠ [] := by
  induction f generalizing n acc with
  | zero =>
    rcases h with h1 | h2
    · omega
    · exact h2
  | succ f ih =>
    simp only [natCharsAux]
    by_cases hn : n < 10
    · rw [if_pos hn]
      simp
    · rw [if_neg hn]
      exact ih (Or.inr (by simp))

theorem natChars_ne_nil (n : Nat) : natChars n ≠ [] :=
  natCharsAux_ne_nil (Or.inl (by omega))

theorem splitAtLastNl_some {cs p q : List Char}
    (h : splitAtLastNl cs = some (p, q)) : cs = p ++ q ∧ p ≠ [] := by
  induction cs generalizing p q with
  | nil => simp [splitAtLastNl] at h
  | cons c rest ih =>
    simp only [splitAtLastNl] at h
    rcases hr : splitAtLastNl rest with _ | ⟨p', q'⟩
    · rw [hr] at h
      by_cases hc : c = '\n'
      · rw [if_pos hc] at h
        simp only [Option.some.injEq, Prod.mk.injEq] at h
        obtain ⟨h1, h2⟩ := h
        subst h1
        subst h2
        exact ⟨rfl, by simp⟩
      · rw [if_neg hc] at h
        cases h
    · rw [hr] at h
      simp only [Option.some.injEq, Prod.mk.injEq] at h
      obtain ⟨h1, h2⟩ := h
      subst h1
      subst h2
      obtain ⟨hcs, _⟩ := ih hr
      exact ⟨by rw [List.cons_append, ← hcs], by simp⟩

theorem splitAtLastNl_eq_none {cs : List Char} (h : '\n' ∉ cs) :
    splitAtLastNl cs = none := by
  induction cs with
  | nil => rfl
  | cons c rest ih =>
    simp only [splitAtLastNl]
    rw [ih (fun hm => h (List.mem_cons_of_mem _ hm))]
    rw [if_neg (fun hc => h (by rw [← hc]; exact List.mem_cons_self _ _))]

/-! ### Helper lemmas: the block scanner -/

theorem splitBlocksF_nil (f : Nat) : splitBlocksF f [] = [[]] := by
  cases f <;> rfl

theorem splitBlocksF_cons_sep {f : Nat} {c : Char} {rest p q : List Char}
    (hc : c = '\n')
    (hm : splitAtLastNl (rest.takeWhile isPySpace) = some (p, q)) :
    splitBlocksF (f + 1) (c :: rest) =
      [] :: splitBlocksF f (q ++ rest.dropWhile isPySpace) := by
  subst hc
  simp [splitBlocksF, hm]

theorem splitBlocksF_cons_nosep {f : Nat} {c : Char} {rest : List Char}
    (hc : c = '\n')
    (hm : splitAtLastNl (rest.takeWhile isPySpace) = none) :
    splitBlocksF (f + 1) (c :: rest) = consHead c (splitBlocksF f rest) := by
  subst hc
  simp [splitBlocksF, hm]

theorem splitBlocksF_cons_other {f : Nat} {c : Char} {rest : List Char}
    (hc : ¬ c = '\n') :
    splitBlocksF (f + 1) (c :: rest) = consHead c (splitBlocksF f rest) := by
  simp [splitBlocksF, hc]

theorem length_sep_arg_lt {rest p q : List Char}
    (hm : splitAtLastNl (rest.takeWhile isPySpace) = some (p, q)) :
    (q ++ rest.dropWhile isPySpace).length + 1 ≤ rest.length := by
  obtain ⟨heq, hne⟩ := splitAtLastNl_some hm
  have h1 : (rest.takeWhile isPySpace).length + (rest.dropWhile isPySpace).length
      = rest.length := by
    rw [← List.length_append, List.takeWhile_append_dropWhile]
  have h2 : (rest.takeWhile isPySpace).length = p.length + q.length := by
    rw [heq, List.length_append]
  have h3 : 1 ≤ p.length := List.length_pos.2 hne
  rw [List.length_append]
  omega

theorem splitBlocksF_fuel {f1 f2 : Nat} {s : List Char}
    (h1 : s.length ≤ f1) (h2 : s.length ≤ f2) :
    splitBlocksF f1 s = splitBlocksF f2 s := by
  induction f1 generalizing f2 s with
  | zero =>
    have hs : s = [] := List.length_eq_zero.1 (Nat.le_zero.1 h1)
    subst hs
    rw [splitBlocksF_nil, splitBlocksF_nil]
  | succ f1 ih =>
    cases s with
    | nil => rw [splitBlocksF_nil, splitBlocksF_nil]
    | cons c rest =>
      cases f2 with
      | zero => simp at h2
      | succ f2' =>
        simp only [List.length_cons] at h1 h2
        by_cases hc : c = '\n'
        · rcases hm : splitAtLastNl (rest.takeWhile isPySpace) with _ | ⟨p, q⟩
          · rw [splitBlocksF_cons_nosep hc hm, splitBlocksF_cons_nosep hc hm,
              @ih f2' rest (by omega) (by omega)]
          · have hlt := length_sep_arg_lt hm
            rw [splitBlocksF_cons_sep hc hm, splitBlocksF_cons_sep hc hm,
              @ih f2' (q ++ rest.dropWhile isPySpace)
                (by omega) (by omega)]
        · rw [splitBlocksF_cons_other hc, splitBlocksF_cons_other hc,
            @ih f2' rest (by omega) (by omega)]

theorem splitBlocks_nil : splitBlocks [] = [[]] := rfl

theorem splitBlocks_cons_sep {c : Char} {rest p q : List Char} (hc : c = '\n')
    (hm : splitAtLastNl (rest.takeWhile isPySpace) = some (p, q)) :
    splitBlocks (c :: rest) =
      [] :: splitBlocks (q ++ rest.dropWhile isPySpace) := by
  unfold splitBlocks
  rw [List.length_cons, splitBlocksF_cons_sep hc hm]
  have hlt := length_sep_arg_lt hm
  rw [@splitBlocksF_fuel rest.length (q ++ rest.dropWhile isPySpace).length
    (q ++ rest.dropWhile isPySpace) (by omega) le_rfl]

theorem splitBlocks_cons_nosep {c : Char} {rest : List Char} (hc : c = '\n')
    (hm : splitAtLastNl (rest.takeWhile isPySpace) = none) :
    splitBlocks (c :: rest) = consHead c (splitBlocks rest) := by
  unfold splitBlocks
  rw [List.length_cons, splitBlocksF_cons_nosep hc hm]

theorem splitBlocks_cons_other {c : Char} {rest : List Char} (hc : ¬ c = '\n') :
    splitBlocks (c :: rest) = consHead c (splitBlocks rest) := by
  unfold splitBlocks
  rw [List.length_cons, splitBlocksF_cons_other hc]

theorem splitBlocksF_ne_nil (f : Nat) (s : List Char) : splitBlocksF f s ≠ [] := by
  induction f generalizing s with
  | zero => simp [splitBlocksF]
  | succ f ih =>
    cases s with
    | nil => simp [splitBlocksF_nil]
    | cons c rest =>
      by_cases hc : c = '\n'
      · rcases hm : splitAtLastNl (rest.takeWhile isPySpace) with _ | ⟨p, q⟩
        · rw [splitBlocksF_cons_nosep hc hm]
          exact consHead_ne_nil _ _
        · rw [splitBlocksF_cons_sep hc hm]
          simp
      · rw [splitBlocksF_cons_other hc]
        exact consHead_ne_nil _ _

theorem splitBlocks_ne_nil (s : List Char) : splitBlocks s ≠ [] :=
  splitBlocksF_ne_nil _ _

theorem splitAtLastNl_none_not_mem {cs : List Char}
    (h : splitAtLastNl cs = none) : '\n' ∉ cs := by
  induction cs with
  | nil => simp
  | cons c rest ih =>
    simp only [splitAtLastNl] at h
    rcases hr : splitAtLastNl rest with _ | ⟨p, q⟩
    · rw [hr] at h
      by_cases hc : c = '\n'
      · rw [if_pos hc] at h
        cases h
      · intro hm
        rcases List.mem_cons.1 hm with h1 | h2
        · exact hc h1.symm
        · exact ih hr h2
    · rw [hr] at h
      cases h

theorem splitBlocksF_head_pre (f : Nat) (s : List Char) :
    ∀ l ls, splitBlocksF f s = l :: ls → l <+: s := by
  induction f generalizing s with
  | zero =>
    intro l ls h
    simp only [splitBlocksF] at h
    injection h with h1 _
    exact h1 ▸ List.prefix_rfl
  | succ f ih =>
    intro l ls h
    cases s with
    | nil =>
      rw [splitBlocksF_nil] at h
      injection h with h1 _
      exact h1 ▸ List.nil_prefix
    | cons c rest =>
      by_cases hc : c = '\n'
      · rcases hm : splitAtLastNl (rest.takeWhile isPySpace) with _ | ⟨p, q⟩
        · rw [splitBlocksF_cons_nosep hc hm] at h
          obtain ⟨x, xs, hx⟩ := List.exists_cons_of_ne_nil (splitBlocksF_ne_nil f rest)
          rw [hx] at h
          simp only [consHead] at h
          injection h with h1 _
          rcases ih rest x xs hx with ⟨t, ht⟩
          exact ⟨t, by rw [← h1, List.cons_append, ht]⟩
        · rw [splitBlocksF_cons_sep hc hm] at h
          injection h with h1 _
          exact h1 ▸ List.nil_prefix
      · rw [splitBlocksF_cons_other hc] at h
        obtain ⟨x, xs, hx⟩ := List.exists_cons_of_ne_nil (splitBlocksF_ne_nil f rest)
        rw [hx] at h
        simp only [consHead] at h
        injection h with h1 _
        rcases ih rest x xs hx with ⟨t, ht⟩
        exact ⟨t, by rw [← h1, List.cons_append, ht]⟩

theorem noSep_of_cons_not_nl {c : Char} {rest : List Char} (hc : ¬ c = '\n')
    (h : noSep rest) : noSep (c :: rest) :=
  ⟨fun h1 => absurd h1 hc, h⟩

theorem splitBlocksF_noSep (f : Nat) (s : List Char) (hf : s.length ≤ f) :
    ∀ p ∈ splitBlocksF f s, noSep p := by
  induction f generalizing s with
  | zero =>
    have hs : s = [] := List.length_eq_zero.1 (Nat.le_zero.1 hf)
    subst hs
    intro p hp
    rw [splitBlocksF_nil] at hp
    rcases List.mem_singleton.1 hp with rfl
    trivial
  | succ f ih =>
    intro p hp
    cases s with
    | nil =>
      rw [splitBlocksF_nil] at hp
      rcases List.mem_singleton.1 hp with rfl
      trivial
    | cons c rest =>
      simp only [List.length_cons] at hf
      by_cases hc : c = '\n'
      · rcases hm : splitAtLastNl (rest.takeWhile isPySpace) with _ | ⟨pp, qq⟩
        · rw [splitBlocksF_cons_nosep hc hm] at hp
          obtain ⟨x, xs, hx⟩ := List.exists_cons_of_ne_nil (splitBlocksF_ne_nil f rest)
          rw [hx] at hp
          simp only [consHead] at hp
          rcases List.mem_cons.1 hp with rfl | h2
          · constructor
            · intro _
              have hnm : '\n' ∉ rest.takeWhile isPySpace :=
                splitAtLastNl_none_not_mem hm
              rcases splitBlocksF_head_pre f rest x xs hx with ⟨t, ht⟩
              intro hmem
              apply hnm
              have hpre := takeWhile_prefix_append isPySpace x t
              rw [ht] at hpre
              exact hpre.subset hmem
            · exact ih rest (by omega) x (hx ▸ List.mem_cons_self x xs)
          · exact ih rest (by omega) p (hx ▸ List.mem_cons_of_mem _ h2)
        · rw [splitBlocksF_cons_sep hc hm] at hp
          rcases List.mem_cons.1 hp with rfl | h2
          · trivial
          · have hlt := length_sep_arg_lt hm
            exact ih _ (by omega) p h2
      · rw [splitBlocksF_cons_other hc] at hp
        obtain ⟨x, xs, hx⟩ := List.exists_cons_of_ne_nil (splitBlocksF_ne_nil f rest)
        rw [hx] at hp
        simp only [consHead] at hp
        rcases List.mem_cons.1 hp with rfl | h2
        · exact noSep_of_cons_not_nl hc
            (ih rest (by omega) x (hx ▸ List.mem_cons_self x xs))
        · exact ih rest (by omega) p (hx ▸ List.mem_cons_of_mem _ h2)

theorem splitBlocks_noSep {s p : List Char} (hp : p ∈ splitBlocks s) : noSep p :=
  splitBlocksF_noSep _ _ le_rfl p hp

theorem noSep_append_right {a b : List Char} (h : noSep (a ++ b)) : noSep b := by
  induction a with
  | nil => exact h
  | cons c a ih => exact ih h.2

theorem noSep_append_left {a b : List Char} (h : noSep (a ++ b)) : noSep a := by
  induction a with
  | nil => trivial
  | cons c a ih =>
    refine ⟨fun h1 => ?_, ih h.2⟩
    intro hm
    exact (h.1 h1) ((takeWhile_prefix_append isPySpace a b).subset hm)

theorem noSep_of_infix_part {x s : List Char} (hx : x <:+: s) (h : noSep s) : noSep x := by
  rcases hx with ⟨u, v, huv⟩
  rw [← huv] at h
  exact noSep_append_right (a := u) (noSep_append_left h)

theorem noSep_of_no_nl {s : List Char} (h : '\n' ∉ s) : noSep s := by
  induction s with
  | nil => trivial
  | cons c rest ih =>
    constructor
    · intro h1
      exact (h (by rw [← h1]; exact List.mem_cons_self _ _)).elim
    · exact ih fun hm => h (List.mem_cons_of_mem _ hm)

theorem takeWhile_ws_nil_of_head {y : List Char}
    (h : ∀ c, y.head? = some c → isPySpace c = false) :
    y.takeWhile isPySpace = [] := by
  cases y with
  | nil => rfl
  | cons c rest => rw [List.takeWhile_cons, if_neg (by simp [h c rfl])]

theorem noSep_append_intro {x y : List Char} (hx : noSep x) (hy : noSep y)
    (hhead : ∀ c, y.head? = some c → isPySpace c = false) : noSep (x ++ y) := by
  induction x with
  | nil => exact hy
  | cons c x ih =>
    exact ⟨fun h1 => nl_not_takeWhile_append (hx.1 h1) hhead, ih hx.2⟩

theorem noSep_append_no_nl {x y : List Char} (hx : '\n' ∉ x) (hy : noSep y) :
    noSep (x ++ y) := by
  induction x with
  | nil => exact hy
  | cons c x ih =>
    refine ⟨fun h1 => (hx (by rw [← h1]; exact List.mem_cons_self _ _)).elim, ?_⟩
    exact ih fun hm => hx (List.mem_cons_of_mem _ hm)

theorem splitBlocks_eq_single {b : List Char} (hns : noSep b) :
    splitBlocks b = [b] := by
  induction b with
  | nil => rfl
  | cons c rest ih =>
    by_cases hc : c = '\n'
    · rw [splitBlocks_cons_nosep hc (splitAtLastNl_eq_none (hns.1 hc)),
        ih hns.2]
      rfl
    · rw [splitBlocks_cons_other hc, ih hns.2]
      rfl

theorem splitBlocks_sep_cons {y : List Char}
    (hyhead : ∀ c, y.head? = some c → isPySpace c = false) :
    splitBlocks ('\n' :: '\n' :: y) = [] :: splitBlocks y := by
  have hrun : ('\n' :: y).takeWhile isPySpace = ['\n'] := by
    rw [List.takeWhile_cons, if_pos (by decide), takeWhile_ws_nil_of_head hyhead]
  have hm : splitAtLastNl (('\n' :: y).takeWhile isPySpace) = some (['\n'], []) := by
    rw [hrun]
    rfl
  rw [splitBlocks_cons_sep rfl hm]
  have hdrop : ('\n' :: y).dropWhile isPySpace = y := by
    rw [List.dropWhile_cons, if_pos (by decide), dropWhile_eq_self_of_head hyhead]
  rw [hdrop, List.nil_append]

theorem splitBlocks_append_sep {b y : List Char} (hns : noSep b)
    (hlast : ∀ c, b.getLast? = some c → isPySpace c = false)
    (hyhead : ∀ c, y.head? = some c → isPySpace c = false) :
    splitBlocks (b ++ '\n' :: '\n' :: y) = b :: splitBlocks y := by
  induction b with
  | nil =>
    rw [List.nil_append]
    exact splitBlocks_sep_cons hyhead
  | cons c rest ih =>
    rw [List.cons_append]
    by_cases hrne : rest = []
    · subst hrne
      by_cases hc : c = '\n'
      · exfalso
        have hcl := hlast c (by simp)
        rw [hc] at hcl
        exact absurd hcl (by decide)
      · rw [List.nil_append, splitBlocks_cons_other hc,
          splitBlocks_sep_cons hyhead]
        rfl
    · have hlastr : ∀ d, rest.getLast? = some d → isPySpace d = false := by
        intro d hd
        apply hlast d
        obtain ⟨r, rest', hrest⟩ := List.exists_cons_of_ne_nil hrne
        rw [hrest] at hd ⊢
        rw [List.getLast?_cons_cons]
        exact hd
      by_cases hc : c = '\n'
      · have hex : ∃ x ∈ rest, isPySpace x = false := by
          have hd : rest.getLast? = some (rest.getLast hrne) :=
            List.getLast?_eq_getLast rest hrne
          exact ⟨rest.getLast hrne, List.getLast_mem hrne, hlastr _ hd⟩
        have htw : (rest ++ '\n' :: '\n' :: y).takeWhile isPySpace
            = rest.takeWhile isPySpace := takeWhile_append_stop _ hex
        have hnm : '\n' ∉ (rest ++ '\n' :: '\n' :: y).takeWhile isPySpace := by
          rw [htw]
          exact hns.1 hc
        rw [splitBlocks_cons_nosep hc (splitAtLastNl_eq_none hnm),
          ih hns.2 hlastr]
        rfl
      · rw [splitBlocks_cons_other hc, ih hns.2 hlastr]
        rfl

theorem intercalate_head {b2 : List Char} {bs2 : List (List Char)} (hb2 : b2 ≠ []) :
    (List.intercalate ['\n', '\n'] (b2 :: bs2)).head? = b2.head? := by
  cases bs2 with
  | nil => rw [intercalate_single]
  | cons b3 bs3 =>
    rw [intercalate_cons_cons]
    cases b2 with
    | nil => cases hb2 rfl
    | cons c cs => simp

theorem splitBlocks_intercalate {blocks : List (List Char)}
    (h : ∀ b ∈ blocks, noSep b ∧ b ≠ [] ∧
      (∀ c, b.head? = some c → isPySpace c = false) ∧
      (∀ c, b.getLast? = some c → isPySpace c = false))
    (hne : blocks ≠ []) :
    splitBlocks (List.intercalate ['\n', '\n'] blocks) = blocks := by
  induction blocks with
  | nil => cases hne rfl
  | cons b bs ih =>
    cases bs with
    | nil =>
      rw [intercalate_single]
      exact splitBlocks_eq_single (h b (List.mem_cons_self _ _)).1
    | cons b2 bs2 =>
      rw [intercalate_cons_cons]
      obtain ⟨hb_ns, _, _, hb_last⟩ := h b (List.mem_cons_self _ _)
      obtain ⟨_, hb2_ne, hb2_head, _⟩ := h b2 (List.mem_cons_of_mem _ (List.mem_cons_self _ _))
      have hyhead : ∀ c, (List.intercalate ['\n', '\n'] (b2 :: bs2)).head? = some c →
          isPySpace c = false := by
        intro c hcc
        rw [intercalate_head hb2_ne] at hcc
        exact hb2_head c hcc
      have hassoc : b ++ ['\n', '\n'] ++ List.intercalate ['\n', '\n'] (b2 :: bs2)
          = b ++ '\n' :: '\n' :: List.intercalate ['\n', '\n'] (b2 :: bs2) := by
        rw [List.append_assoc]
        rfl
      rw [hassoc, splitBlocks_append_sep hb_ns hb_last hyhead,
        ih (fun b' hb' => h b' (List.mem_cons_of_mem _ hb')) (by simp)]

/-! ### Helper lemmas: the validation loop and rendered blocks -/

theorem validLoop_cons_none {b : List Char} {rest acc : List (List Char)}
    (hb : blockResult (splitOnNl (pyStrip b)) = none) :
    validLoop (b :: rest) acc = validLoop rest acc := by
  simp [validLoop, hb]

theorem validLoop_cons_some {b : List Char} {rest acc : List (List Char)}
    {sb : SrtBlock} (hb : blockResult (splitOnNl (pyStrip b)) = some sb) :
    validLoop (b :: rest) acc
      = validLoop rest (acc ++ [renderBlock (acc.length + 1) sb]) := by
  simp [validLoop, hb]

theorem collectBlocks_cons_none {b : List Char} {rest : List (List Char)}
    (hb : blockResult (splitOnNl (pyStrip b)) = none) :
    collectBlocks (b :: rest) = collectBlocks rest := by
  simp [collectBlocks, hb]

theorem collectBlocks_cons_some {b : List Char} {rest : List (List Char)}
    {sb : SrtBlock} (hb : blockResult (splitOnNl (pyStrip b)) = some sb) :
    collectBlocks (b :: rest) = sb :: collectBlocks rest := by
  simp [collectBlocks, hb]

theorem validLoop_eq (blocks acc : List (List Char)) :
    validLoop blocks acc
      = acc ++ renderAll (acc.length + 1) (collectBlocks blocks) := by
  induction blocks generalizing acc with
  | nil => simp [validLoop, collectBlocks, renderAll]
  | cons b rest ih =>
    rcases hb : blockResult (splitOnNl (pyStrip b)) with _ | sb
    · rw [validLoop_cons_none hb, collectBlocks_cons_none hb, ih]
    · rw [validLoop_cons_some hb, collectBlocks_cons_some hb, ih]
      simp only [renderAll, List.length_append, List.length_cons,
        List.length_nil, List.append_assoc, List.singleton_append,
        Nat.zero_add]

theorem renderAll_length (start : Nat) (bs : List SrtBlock) :
    (renderAll start bs).length = bs.length := by
  induction bs generalizing start with
  | nil => rfl
  | cons b bs ih => simp [renderAll, ih]

theorem mem_renderAll {start : Nat} {bs : List SrtBlock} {r : List Char}
    (h : r ∈ renderAll start bs) : ∃ i b, b ∈ bs ∧ r = renderBlock i b := by
  induction bs generalizing start with
  | nil => simp [renderAll] at h
  | cons b bs ih =>
    simp only [renderAll, List.mem_cons] at h
    rcases h with rfl | h2
    · exact ⟨start, b, List.mem_cons_self _ _, rfl⟩
    · obtain ⟨i, b', hb', hr⟩ := ih h2
      exact ⟨i, b', List.mem_cons_of_mem _ hb', hr⟩

theorem blockResult_some {lines : List (List Char)} {sb : SrtBlock}
    (h : blockResult lines = some sb) :
    ∃ l0 l1 l2 rest, lines = l0 :: l1 :: l2 :: rest ∧
      sb.timestamp = pyStrip l1 ∧
      sb.text = pyStrip (List.intercalate ['\n'] (l2 :: rest)) ∧
      hasArrow (pyStrip l1) = true ∧
      pyStrip (List.intercalate ['\n'] (l2 :: rest)) ≠ [] := by
  rcases lines with _ | ⟨l0, lines1⟩
  · simp [blockResult] at h
  rcases lines1 with _ | ⟨l1, lines2⟩
  · simp [blockResult] at h
  rcases lines2 with _ | ⟨l2, rest⟩
  · simp [blockResult] at h
  simp only [blockResult] at h
  by_cases h1 : hasArrow (pyStrip l1) = true
  · rw [if_pos h1] at h
    by_cases h2 : pyStrip (List.intercalate ['\n'] (l2 :: rest)) = []
    · rw [if_pos h2] at h
      cases h
    · rw [if_neg h2] at h
      injection h with h3
      exact ⟨l0, l1, l2, rest, rfl, by rw [← h3], by rw [← h3], h1, h2⟩
  · rw [if_neg h1] at h
    cases h

theorem hasArrow_ne_nil {s : List Char} (h : hasArrow s = true) : s ≠ [] := by
  intro hs
  subst hs
  exact absurd h (by decide)

theorem getLast?_cons_of_ne_nil (c : Char) {l : List Char} (h : l ≠ []) :
    (c :: l).getLast? = l.getLast? := by
  obtain ⟨d, ds, rfl⟩ := List.exists_cons_of_ne_nil h
  rw [List.getLast?_cons_cons]

theorem renderBlock_eq (i : Nat) (b : SrtBlock) :
    renderBlock i b = (natChars i ++ '\n' :: b.timestamp) ++ '\n' :: b.text :=
  rfl

theorem renderBlock_head {i : Nat} {b : SrtBlock} :
    ∀ c, (renderBlock i b).head? = some c → isPySpace c = false := by
  intro c hc
  unfold renderBlock at hc
  obtain ⟨d, ds, hnc⟩ := List.exists_cons_of_ne_nil (natChars_ne_nil i)
  rw [hnc] at hc
  simp only [List.cons_append, List.head?_cons, Option.some.injEq] at hc
  exact hc ▸ mem_natChars_not_space (hnc ▸ List.mem_cons_self d ds)

theorem renderBlock_last {i : Nat} {b : SrtBlock} (htext : b.text ≠ [])
    (hlast : ∀ c, b.text.getLast? = some c → isPySpace c = false) :
    ∀ c, (renderBlock i b).getLast? = some c → isPySpace c = false := by
  intro c hc
  rw [renderBlock_eq, List.getLast?_append, getLast?_cons_of_ne_nil _ htext] at hc
  obtain ⟨d, hd⟩ : ∃ d, b.text.getLast? = some d :=
    ⟨_, List.getLast?_eq_getLast _ htext⟩
  rw [hd] at hc
  have hor : (some d).or ((natChars i ++ '\n' :: b.timestamp).getLast?) = some d :=
    rfl
  rw [hor] at hc
  injection hc with hdc
  exact hdc ▸ hlast d hd

theorem renderBlock_noSep {i : Nat} {b : SrtBlock} (hts_ne : b.timestamp ≠ [])
    (hts_head : ∀ c, b.timestamp.head? = some c → isPySpace c = false)
    (hts_nonl : '\n' ∉ b.timestamp)
    (htext_head : ∀ c, b.text.head? = some c → isPySpace c = false)
    (htext_ns : noSep b.text) :
    noSep (renderBlock i b) := by
  unfold renderBlock
  rw [List.append_assoc, List.cons_append]
  apply noSep_append_no_nl (x := natChars i)
  · intro hm
    exact absurd (mem_natChars_not_space hm) (by decide)
  · constructor
    · intro _
      rw [takeWhile_ws_nil_of_head]
      · simp
      · intro c hc
        obtain ⟨t0, ts0, hT⟩ := List.exists_cons_of_ne_nil hts_ne
        rw [hT] at hc
        simp only [List.cons_append, List.head?_cons, Option.some.injEq] at hc
        exact hc ▸ hts_head t0 (by rw [hT]; rfl)
    · apply noSep_append_no_nl hts_nonl
      constructor
      · intro _
        rw [takeWhile_ws_nil_of_head htext_head]
        simp
      · exact htext_ns

theorem firstLine_append_nl {x y : List Char} (hx : '\n' ∉ x) :
    firstLine (x ++ '\n' :: y) = x := by
  unfold firstLine
  induction x with
  | nil =>
    rw [List.nil_append, List.takeWhile_cons, if_neg (by simp)]
  | cons c x ih =>
    rw [List.cons_append, List.takeWhile_cons, if_pos]
    · rw [ih (fun hm => hx (List.mem_cons_of_mem _ hm))]
    · simp only [decide_eq_true_eq]
      exact fun hcc => hx (by rw [← hcc]; exact List.mem_cons_self _ _)

theorem firstLine_renderBlock (i : Nat) (b : SrtBlock) :
    firstLine (renderBlock i b) = natChars i := by
  unfold renderBlock
  rw [List.append_assoc, List.cons_append]
  exact firstLine_append_nl
    (fun hm => absurd (mem_natChars_not_space hm) (by decide))

theorem renderAll_map_firstLine (start : Nat) (bs : List SrtBlock) :
    (renderAll start bs).map firstLine
      = (List.range bs.length).map (fun i => natChars (start + i)) := by
  induction bs generalizing start with
  | nil => simp [renderAll]
  | cons b bs ih =>
    simp only [renderAll, List.map_cons, firstLine_renderBlock, List.length_cons]
    rw [ih (start + 1), List.range_succ_eq_map]
    simp only [List.map_cons, List.map_map, Nat.add_zero]
    congr 1
    apply List.map_congr_left
    intro i _
    simp only [Function.comp_apply]
    congr 1
    omega

/-! ### Helper lemmas: character provenance and block properties -/

theorem mem_of_mem_splitBlocksF (f : Nat) (s : List Char) :
    ∀ p ∈ splitBlocksF f s, ∀ c ∈ p, c ∈ s := by
  induction f generalizing s with
  | zero =>
    intro p hp c hc
    simp only [splitBlocksF, List.mem_singleton] at hp
    subst hp
    exact hc
  | succ f ih =>
    intro p hp c hc
    cases s with
    | nil =>
      rw [splitBlocksF_nil] at hp
      rcases List.mem_singleton.1 hp with rfl
      simp at hc
    | cons d rest =>
      by_cases hd : d = '\n'
      · rcases hm : splitAtLastNl (rest.takeWhile isPySpace) with _ | ⟨pp, qq⟩
        · rw [splitBlocksF_cons_nosep hd hm] at hp
          obtain ⟨x, xs, hx⟩ := List.exists_cons_of_ne_nil (splitBlocksF_ne_nil f rest)
          rw [hx] at hp
          simp only [consHead] at hp
          rcases List.mem_cons.1 hp with rfl | h2
          · rcases List.mem_cons.1 hc with rfl | h3
            · exact List.mem_cons_self _ _
            · exact List.mem_cons_of_mem _
                (ih rest x (hx ▸ List.mem_cons_self x xs) c h3)
          · exact List.mem_cons_of_mem _
              (ih rest p (hx ▸ List.mem_cons_of_mem _ h2) c hc)
        · rw [splitBlocksF_cons_sep hd hm] at hp
          rcases List.mem_cons.1 hp with rfl | h2
          · simp at hc
          · rcases List.mem_append.1 (ih _ p h2 c hc) with h3 | h4
            · apply List.mem_cons_of_mem
              have hrun : c ∈ rest.takeWhile isPySpace := by
                obtain ⟨heq, _⟩ := splitAtLastNl_some hm
                rw [heq]
                exact List.mem_append_right _ h3
              exact (List.takeWhile_prefix _).subset hrun
            · exact List.mem_cons_of_mem _ ((List.dropWhile_suffix _).subset h4)
      · rw [splitBlocksF_cons_other hd] at hp
        obtain ⟨x, xs, hx⟩ := List.exists_cons_of_ne_nil (splitBlocksF_ne_nil f rest)
        rw [hx] at hp
        simp only [consHead] at hp
        rcases List.mem_cons.1 hp with rfl | h2
        · rcases List.mem_cons.1 hc with rfl | h3
          · exact List.mem_cons_self _ _
          · exact List.mem_cons_of_mem _
              (ih rest x (hx ▸ List.mem_cons_self x xs) c h3)
        · exact List.mem_cons_of_mem _
            (ih rest p (hx ▸ List.mem_cons_of_mem _ h2) c hc)

theorem mem_of_mem_splitBlocks {s p : List Char} {c : Char}
    (hp : p ∈ splitBlocks s) (hc : c ∈ p) : c ∈ s :=
  mem_of_mem_splitBlocksF _ _ p hp c hc

theorem pyStrip_infix_self (s : List Char) : pyStrip s <:+: s := by
  rcases pyStrip_prefix_dropWhile s with ⟨t, ht⟩
  rcases List.dropWhile_suffix (l := s) isPySpace with ⟨u, hu⟩
  exact ⟨u, t, by rw [List.append_assoc, ht, hu]⟩

theorem collectBlocks_splitBlocks_props {s : List Char} {sb : SrtBlock}
    (h : sb ∈ collectBlocks (splitBlocks s)) :
    hasArrow sb.timestamp = true ∧ sb.text ≠ [] ∧
    pyStrip sb.timestamp = sb.timestamp ∧ pyStrip sb.text = sb.text ∧
    '\n' ∉ sb.timestamp ∧ noSep sb.text ∧
    (∀ c ∈ sb.timestamp, c ∈ s) ∧ (∀ c ∈ sb.text, c ∈ s) := by
  rw [collectBlocks, List.mem_filterMap] at h
  obtain ⟨p, hp, hbr⟩ := h
  obtain ⟨l0, l1, l2, rest, hls, hts, htx, harr, hne⟩ := blockResult_some hbr
  have hl1mem : l1 ∈ splitOnNl (pyStrip p) := by
    rw [hls]
    exact List.mem_cons_of_mem _ (List.mem_cons_self _ _)
  have hXinf : List.intercalate ['\n'] (l2 :: rest) <:+: p := by
    have hXsuf : List.intercalate ['\n'] (l2 :: rest) <:+ pyStrip p := by
      refine ⟨l0 ++ '\n' :: l1 ++ ['\n'], ?_⟩
      have hip := intercalate_splitOnNl (pyStrip p)
      rw [hls, intercalate_cons_cons, intercalate_cons_cons] at hip
      rw [← hip]
      simp [List.append_assoc]
    exact hXsuf.isInfix.trans (pyStrip_infix_self p)
  refine ⟨?_, ?_, ?_, ?_, ?_, ?_, ?_, ?_⟩
  · rw [hts]
    exact harr
  · rw [htx]
    exact hne
  · rw [hts]
    exact pyStrip_idem _
  · rw [htx]
    exact pyStrip_idem _
  · rw [hts]
    intro hm
    exact no_nl_of_mem_splitOnNl hl1mem (mem_pyStrip hm)
  · rw [htx]
    exact noSep_of_infix_part (pyStrip_infix_self _)
      (noSep_of_infix_part hXinf (splitBlocks_noSep hp))
  · intro c hc
    rw [hts] at hc
    have h1 : c ∈ l1 := mem_pyStrip hc
    have h2 : c ∈ pyStrip p := mem_of_mem_splitOnNl hl1mem h1
    exact mem_of_mem_splitBlocks hp (mem_pyStrip h2)
  · intro c hc
    rw [htx] at hc
    have h1 : c ∈ List.intercalate ['\n'] (l2 :: rest) := mem_pyStrip hc
    exact mem_of_mem_splitBlocks hp (hXinf.subset h1)

theorem mem_renderBlock {i : Nat} {b : SrtBlock} {c : Char}
    (h : c ∈ renderBlock i b) :
    c ∈ natChars i ∨ c = '\n' ∨ c ∈ b.timestamp ∨ c ∈ b.text := by
  rw [renderBlock_eq] at h
  rcases List.mem_append.1 h with h1 | h2
  · rcases List.mem_append.1 h1 with h3 | h4
    · exact Or.inl h3
    · rcases List.mem_cons.1 h4 with rfl | h5
      · exact Or.inr (Or.inl rfl)
      · exact Or.inr (Or.inr (Or.inl h5))
  · rcases List.mem_cons.1 h2 with rfl | h5
    · exact Or.inr (Or.inl rfl)
    · exact Or.inr (Or.inr (Or.inr h5))

theorem renderBlock_ne_nil (i : Nat) (b : SrtBlock) : renderBlock i b ≠ [] := by
  rw [renderBlock_eq]
  simp

/-! ### Helper lemmas: the canonical form of validated output -/

theorem rendered_piece_props {s r : List Char}
    (hr : r ∈ renderAll 1 (collectBlocks (splitBlocks s))) :
    noSep r ∧ r ≠ [] ∧
    (∀ c, r.head? = some c → isPySpace c = false) ∧
    (∀ c, r.getLast? = some c → isPySpace c = false) ∧
    ('\r' ∉ s → '\r' ∉ r) := by
  obtain ⟨i, b, hb, rfl⟩ := mem_renderAll hr
  obtain ⟨harr, htext_ne, hts_idem, htext_idem, hts_nonl, htext_ns,
    hts_mem, htext_mem⟩ := collectBlocks_splitBlocks_props hb
  have hts_ne : b.timestamp ≠ [] := hasArrow_ne_nil harr
  have hts_head : ∀ c, b.timestamp.head? = some c → isPySpace c = false := by
    intro c hc
    rw [← hts_idem] at hc
    exact pyStrip_head_not_space hc
  have htext_head : ∀ c, b.text.head? = some c → isPySpace c = false := by
    intro c hc
    rw [← htext_idem] at hc
    exact pyStrip_head_not_space hc
  have htext_last : ∀ c, b.text.getLast? = some c → isPySpace c = false := by
    intro c hc
    rw [← htext_idem] at hc
    exact pyStrip_last_not_space hc
  refine ⟨renderBlock_noSep hts_ne hts_head hts_nonl htext_head htext_ns,
    renderBlock_ne_nil i b, renderBlock_head,
    renderBlock_last htext_ne htext_last, ?_⟩
  intro hcr hm
  rcases mem_renderBlock hm with h1 | h2 | h3 | h4
  · exact absurd (mem_natChars_not_space h1) (by decide)
  · exact absurd h2 (by decide)
  · exact hcr (hts_mem _ h3)
  · exact hcr (htext_mem _ h4)

theorem intercalate_head_not_space {pieces : List (List Char)}
    (h : ∀ p ∈ pieces, p ≠ [] ∧ ∀ c, p.head? = some c → isPySpace c = false) :
    ∀ c, (List.intercalate ['\n', '\n'] pieces).head? = some c →
      isPySpace c = false := by
  intro c hc
  cases pieces with
  | nil => simp [List.intercalate] at hc
  | cons p ps =>
    rw [intercalate_head (h p (List.mem_cons_self _ _)).1] at hc
    exact (h p (List.mem_cons_self _ _)).2 c hc

theorem intercalate_last_not_space {pieces : List (List Char)}
    (h : ∀ p ∈ pieces, p ≠ [] ∧ ∀ c, p.getLast? = some c → isPySpace c = false) :
    ∀ c, (List.intercalate ['\n', '\n'] pieces).getLast? = some c →
      isPySpace c = false := by
  induction pieces with
  | nil =>
    intro c hc
    simp [List.intercalate] at hc
  | cons p ps ih =>
    cases ps with
    | nil =>
      intro c hc
      rw [intercalate_single] at hc
      exact (h p (List.mem_cons_self _ _)).2 c hc
    | cons p2 ps2 =>
      intro c hc
      rw [intercalate_cons_cons, List.getLast?_append] at hc
      have hp2 := h p2 (List.mem_cons_of_mem _ (List.mem_cons_self _ _))
      have hne2 : List.intercalate ['\n', '\n'] (p2 :: ps2) ≠ [] := by
        intro hq
        have hh := @intercalate_head p2 ps2 hp2.1
        rw [hq] at hh
        obtain ⟨d, ds, hd⟩ := List.exists_cons_of_ne_nil hp2.1
        rw [hd] at hh
        simp at hh
      obtain ⟨d, hd⟩ : ∃ d,
          (List.intercalate ['\n', '\n'] (p2 :: ps2)).getLast? = some d :=
        ⟨_, List.getLast?_eq_getLast _ hne2⟩
      rw [hd] at hc
      have hor : (some d).or ((p ++ ['\n', '\n']).getLast?) = some d := rfl
      rw [hor] at hc
      injection hc with hdc
      exact ih (fun p' hp' => h p' (List.mem_cons_of_mem _ hp')) c (hdc ▸ hd)

theorem mem_intercalate_any {sep : List Char} {ls : List (List Char)} {c : Char}
    (h : c ∈ List.intercalate sep ls) : c ∈ sep ∨ ∃ l ∈ ls, c ∈ l := by
  induction ls with
  | nil => simp [List.intercalate] at h
  | cons l ls ih =>
    cases ls with
    | nil =>
      rw [intercalate_single] at h
      exact Or.inr ⟨l, List.mem_cons_self _ _, h⟩
    | cons l2 ls2 =>
      rw [intercalate_cons_cons] at h
      rcases List.mem_append.1 h with h12 | h3
      · rcases List.mem_append.1 h12 with h1 | h2
        · exact Or.inr ⟨l, List.mem_cons_self _ _, h1⟩
        · exact Or.inl h2
      · rcases ih h3 with h4 | ⟨l', hl', hc'⟩
        · exact Or.inl h4
        · exact Or.inr ⟨l', List.mem_cons_of_mem _ hl', hc'⟩

theorem blockResult_cons (l0 l1 l2 : List Char) (rest : List (List Char)) :
    blockResult (l0 :: l1 :: l2 :: rest)
      = if hasArrow (pyStrip l1) = true then
          (if pyStrip (List.intercalate ['\n'] (l2 :: rest)) = [] then none
           else some ⟨pyStrip l1, pyStrip (List.intercalate ['\n'] (l2 :: rest))⟩)
        else none := rfl

theorem blockResult_renderBlock {i : Nat} {b : SrtBlock}
    (harr : hasArrow b.timestamp = true)
    (hts_idem : pyStrip b.timestamp = b.timestamp)
    (hts_nonl : '\n' ∉ b.timestamp)
    (htext_ne : b.text ≠ [])
    (htext_idem : pyStrip b.text = b.text) :
    blockResult (splitOnNl (pyStrip (renderBlock i b))) = some b := by
  have htext_last : ∀ c, b.text.getLast? = some c → isPySpace c = false := by
    intro c hc
    rw [← htext_idem] at hc
    exact pyStrip_last_not_space hc
  have hstrip : pyStrip (renderBlock i b) = renderBlock i b :=
    pyStrip_eq_self renderBlock_head (renderBlock_last htext_ne htext_last)
  rw [hstrip]
  have hnl_nat : '\n' ∉ natChars i :=
    fun hm => absurd (mem_natChars_not_space hm) (by decide)
  have hsp : splitOnNl (renderBlock i b)
      = natChars i :: b.timestamp :: splitOnNl b.text := by
    unfold renderBlock
    rw [List.append_assoc, List.cons_append,
      splitOnNl_append hnl_nat, splitOnNl_append hts_nonl]
  rw [hsp]
  obtain ⟨t0, ts0, hT⟩ := List.exists_cons_of_ne_nil (splitOnNl_ne_nil b.text)
  rw [hT, blockResult_cons, hts_idem, if_pos harr, ← hT,
    intercalate_splitOnNl, htext_idem, if_neg htext_ne]

theorem collectBlocks_renderAll (start : Nat) (bs : List SrtBlock)
    (h : ∀ b ∈ bs, hasArrow b.timestamp = true ∧
      pyStrip b.timestamp = b.timestamp ∧ '\n' ∉ b.timestamp ∧
      b.text ≠ [] ∧ pyStrip b.text = b.text) :
    collectBlocks (renderAll start bs) = bs := by
  induction bs generalizing start with
  | nil => rfl
  | cons b bs ih =>
    obtain ⟨h1, h2, h3, h4, h5⟩ := h b (List.mem_cons_self _ _)
    simp only [renderAll]
    rw [collectBlocks_cons_some (blockResult_renderBlock h1 h2 h3 h4 h5),
      ih (start + 1) (fun b' hb' => h b' (List.mem_cons_of_mem _ hb'))]

theorem validate_srt_structure {content : List Char} (hne : content ≠ []) :
    validate_srt content = List.intercalate ['\n', '\n']
      (renderAll 1 (collectBlocks (splitBlocks
        (pyStrip (normalizeNewlines content))))) ++ ['\n'] := by
  unfold validate_srt
  rw [if_neg hne]
  simp only [validLoop_eq, List.length_nil, List.nil_append, Nat.zero_add]

theorem validate_srt_idem (content : List Char) :
    validate_srt (validate_srt content) = validate_srt content := by
  by_cases hc0 : content = []
  · subst hc0
    rfl
  · rw [validate_srt_structure hc0]
    set s0 := pyStrip (normalizeNewlines content) with hs0
    set bs := collectBlocks (splitBlocks s0) with hbs
    by_cases hbse : bs = []
    · rw [hbse]
      have hval : List.intercalate ['\n', '\n']
          (renderAll 1 ([] : List SrtBlock)) ++ ['\n'] = ['\n'] := rfl
      rw [hval]
      decide
    · set R := List.intercalate ['\n', '\n'] (renderAll 1 bs) with hR
      have hprops : ∀ r ∈ renderAll 1 bs, noSep r ∧ r ≠ [] ∧
          (∀ c, r.head? = some c → isPySpace c = false) ∧
          (∀ c, r.getLast? = some c → isPySpace c = false) ∧
          ('\r' ∉ s0 → '\r' ∉ r) := by
        intro r hr
        rw [hbs] at hr
        exact rendered_piece_props hr
      have hcr0 : '\r' ∉ s0 := by
        rw [hs0]
        exact fun hm => cr_not_mem_normalizeNewlines content (mem_pyStrip hm)
      have hRAne : renderAll 1 bs ≠ [] := by
        intro h0
        apply hbse
        have hlen := renderAll_length 1 bs
        rw [h0] at hlen
        exact List.length_eq_zero.1 hlen.symm
      have hRhead : ∀ c, R.head? = some c → isPySpace c = false := by
        rw [hR]
        exact intercalate_head_not_space
          (fun p hp => ⟨(hprops p hp).2.1, (hprops p hp).2.2.1⟩)
      have hRlast : ∀ c, R.getLast? = some c → isPySpace c = false := by
        rw [hR]
        exact intercalate_last_not_space
          (fun p hp => ⟨(hprops p hp).2.1, (hprops p hp).2.2.2.1⟩)
      have hcr : '\r' ∉ R ++ ['\n'] := by
        intro hm
        rcases List.mem_append.1 hm with h1 | h2
        · rw [hR] at h1
          rcases mem_intercalate_any h1 with h3 | ⟨l, hl, hcl⟩
          · exact absurd h3 (by decide)
          · exact ((hprops l hl).2.2.2.2 hcr0) hcl
        · exact absurd (List.mem_singleton.1 h2) (by decide)
      have hbsp : ∀ b ∈ bs, hasArrow b.timestamp = true ∧
          pyStrip b.timestamp = b.timestamp ∧ '\n' ∉ b.timestamp ∧
          b.text ≠ [] ∧ pyStrip b.text = b.text := by
        intro b hb
        rw [hbs] at hb
        obtain ⟨h1, h2, h3, h4, h5, _, _, _⟩ := collectBlocks_splitBlocks_props hb
        exact ⟨h1, h3, h5, h2, h4⟩
      rw [validate_srt_structure (show R ++ ['\n'] ≠ [] by simp),
        normalizeNewlines_eq_self hcr, pyStrip_append_nl hRhead hRlast, hR,
        splitBlocks_intercalate
          (fun r hr => ⟨(hprops r hr).1, (hprops r hr).2.1,
            (hprops r hr).2.2.1, (hprops r hr).2.2.2.1⟩) hRAne,
        collectBlocks_renderAll 1 bs hbsp]

/-! ### Claim theorems: the SRT pipeline -/

theorem validate_R_last (s0 : List Char) :
    ∀ c, (List.intercalate ['\n', '\n']
      (renderAll 1 (collectBlocks (splitBlocks s0)))).getLast? = some c →
      isPySpace c = false :=
  intercalate_last_not_space
    (fun p hp => ⟨(rendered_piece_props hp).2.1, (rendered_piece_props hp).2.2.2.1⟩)

/-- C1: for every input string, the blocks surviving `validate_srt` all have
a timestamp line containing the `-->` token and nonempty text; for nonempty
input the output is exactly those blocks renumbered 1, 2, ... (their index
lines are `natChars 1`, `natChars 2`, ...) joined by one blank line and
followed by a single `'\n'`; and when at least one block survives, the
output ends in exactly one trailing newline (one `'\n'` and not two) — the
single blank line after the last block.  For empty input the output is empty
and no block exists. -/
theorem validate_srt_spec (content : List Char) :
    (∀ b ∈ collectBlocks (splitBlocks (pyStrip (normalizeNewlines content))),
      hasArrow b.timestamp = true ∧ b.text ≠ []) ∧
    (content ≠ [] → validate_srt content = List.intercalate ['\n', '\n']
      (renderAll 1 (collectBlocks (splitBlocks
        (pyStrip (normalizeNewlines content))))) ++ ['\n']) ∧
    ((renderAll 1 (collectBlocks (splitBlocks
        (pyStrip (normalizeNewlines content))))).map firstLine
      = (List.range (collectBlocks (splitBlocks
          (pyStrip (normalizeNewlines content)))).length).map
            (fun i => natChars (i + 1))) ∧
    (collectBlocks (splitBlocks (pyStrip (normalizeNewlines content))) ≠ [] →
      (['\n'] <:+ validate_srt content) ∧
      ¬ (['\n', '\n'] <:+ validate_srt content)) := by
  refine ⟨?_, fun hne => validate_srt_structure hne, ?_, ?_⟩
  · intro b hb
    obtain ⟨h1, h2, _⟩ := collectBlocks_splitBlocks_props hb
    exact ⟨h1, h2⟩
  · rw [renderAll_map_firstLine]
    apply List.map_congr_left
    intro i _
    congr 1
    omega
  · intro hbse
    have hcne : content ≠ [] := by
      intro h0
      apply hbse
      rw [h0]
      rfl
    rw [validate_srt_structure hcne]
    constructor
    · exact ⟨_, rfl⟩
    · rintro ⟨t, ht⟩
      have ht' : (t ++ ['\n']) ++ ['\n'] = List.intercalate ['\n', '\n']
          (renderAll 1 (collectBlocks (splitBlocks
            (pyStrip (normalizeNewlines content))))) ++ ['\n'] := by
        rw [← ht]
        simp
      have hteq := List.append_cancel_right ht'
      have hlast : (List.intercalate ['\n', '\n']
          (renderAll 1 (collectBlocks (splitBlocks
            (pyStrip (normalizeNewlines content)))))).getLast? = some '\n' := by
        rw [← hteq, List.getLast?_append]
        rfl
      exact absurd (validate_R_last _ '\n' hlast) (by decide)

theorem validate_srt_spec_witness :
    (validate_srt ("1\n00:00:01,000 --> 00:00:02,000\nHi\n".data)
      = List.intercalate ['\n', '\n'] (renderAll 1 (collectBlocks (splitBlocks
          (pyStrip (normalizeNewlines
            ("1\n00:00:01,000 --> 00:00:02,000\nHi\n".data)))))) ++ ['\n']) ∧
    (['\n'] <:+ validate_srt ("1\n00:00:01,000 --> 00:00:02,000\nHi\n".data)) ∧
    ¬ (['\n', '\n'] <:+
        validate_srt ("1\n00:00:01,000 --> 00:00:02,000\nHi\n".data)) :=
  ⟨(validate_srt_spec _).2.1 (by decide),
   ((validate_srt_spec _).2.2.2 (by decide)).1,
   ((validate_srt_spec _).2.2.2 (by decide)).2⟩

/-- C5: applying `validate_srt` twice to a well-formed subtitle text with at
least 3 valid blocks yields the same text as applying it once.  (The proof
goes through `validate_srt_idem`, which establishes idempotence for every
input.) -/
theorem validate_srt_roundtrip (s : List Char) (h : wellFormedSrt s) :
    validate_srt (validate_srt s) = validate_srt s :=
  validate_srt_idem s

theorem validate_srt_roundtrip_witness :
    wellFormedSrt ("1\na --> b\nX\n\n2\nc --> d\nY\n\n3\ne --> f\nZ\n".data) ∧
    validate_srt (validate_srt
        ("1\na --> b\nX\n\n2\nc --> d\nY\n\n3\ne --> f\nZ\n".data))
      = validate_srt ("1\na --> b\nX\n\n2\nc --> d\nY\n\n3\ne --> f\nZ\n".data) :=
  ⟨by decide, validate_srt_roundtrip _ (by decide)⟩

/-- C9: the given three-block input loses its malformed middle block (the
timestamp line `BAD_TIMESTAMP` has no `-->`), and the output contains
exactly the `Hello` block renumbered to 1 and the `Bye` block renumbered to
2; the surviving parsed blocks are exactly those two. -/
theorem validate_srt_scenario :
    validate_srt ("1\n00:00:01,000 --> 00:00:02,000\nHello\n\n2\nBAD_TIMESTAMP\nWorld\n\n3\n00:00:03,000 --> 00:00:04,000\nBye\n\n".data)
      = ("1\n00:00:01,000 --> 00:00:02,000\nHello\n\n2\n00:00:03,000 --> 00:00:04,000\nBye\n".data) ∧
    collectBlocks (splitBlocks (pyStrip (normalizeNewlines
        ("1\n00:00:01,000 --> 00:00:02,000\nHello\n\n2\nBAD_TIMESTAMP\nWorld\n\n3\n00:00:03,000 --> 00:00:04,000\nBye\n\n".data))))
      = [⟨"00:00:01,000 --> 00:00:02,000".data, "Hello".data⟩,
         ⟨"00:00:03,000 --> 00:00:04,000".data, "Bye".data⟩] := by
  decide

/-- C10: the per-block validation never consults the index line: the block
outcome is identical for any two first lines, a block with at least 3 lines
is kept exactly when its stripped second line contains `-->` and its
stripped joined remaining lines are nonempty (no numeric check on the first
line), and any block with fewer than 3 lines is dropped. -/
theorem blockResult_ignores_index_line (l0 l0' l1 l2 : List Char)
    (rest : List (List Char)) :
    blockResult (l0 :: l1 :: l2 :: rest) = blockResult (l0' :: l1 :: l2 :: rest) ∧
    (hasArrow (pyStrip l1) = true →
      pyStrip (List.intercalate ['\n'] (l2 :: rest)) ≠ [] →
      blockResult (l0 :: l1 :: l2 :: rest)
        = some ⟨pyStrip l1, pyStrip (List.intercalate ['\n'] (l2 :: rest))⟩) ∧
    (∀ ls : List (List Char), ls.length < 3 → blockResult ls = none) := by
  refine ⟨rfl, ?_, ?_⟩
  · intro h1 h2
    rw [blockResult_cons, if_pos h1, if_neg h2]
  · intro ls hls
    rcases ls with _ | ⟨a, _ | ⟨b2, _ | ⟨c2, rest2⟩⟩⟩
    · rfl
    · rfl
    · rfl
    · exfalso
      simp only [List.length_cons] at hls
      omega

theorem blockResult_ignores_index_line_witness :
    blockResult ("not a number".data :: "a --> b".data :: "text".data :: [])
      = blockResult ("7".data :: "a --> b".data :: "text".data :: []) ∧
    blockResult ("not a number".data :: "a --> b".data :: "text".data :: [])
      = some ⟨pyStrip ("a --> b".data),
          pyStrip (List.intercalate ['\n'] ("text".data :: []))⟩ ∧
    blockResult ["solo".data] = none :=
  ⟨(blockResult_ignores_index_line "not a number".data "7".data "a --> b".data
      "text".data []).1,
   (blockResult_ignores_index_line "not a number".data "7".data "a --> b".data
      "text".data []).2.1 (by decide) (by decide),
   (blockResult_ignores_index_line "not a number".data "7".data "a --> b".data
      "text".data []).2.2 ["solo".data] (by decide)⟩

/-! ### Claim theorems: the translation adapter -/

theorem translate_text_failing (text : List Char) :
    translate_text failingTranslator text = text := by
  unfold translate_text translate_textC failingTranslator
  split_ifs <;> rfl

theorem translateBlock_eq_of_lines {tr : Translator} {block l0 l1 l2 : List Char}
    {rest : List (List Char)}
    (hsp : splitOnNl (pyStrip block) = l0 :: l1 :: l2 :: rest) :
    translateBlock tr block = pyStrip l0 ++ '\n' :: pyStrip l1 ++ '\n' ::
      (if pyStrip (List.intercalate ['\n'] (l2 :: rest)) = []
       then List.intercalate ['\n'] (l2 :: rest)
       else translate_text tr (List.intercalate ['\n'] (l2 :: rest))) := by
  simp [translateBlock, hsp]

theorem translateBlock_eq_short {tr : Translator} {block : List Char}
    (hsp : (splitOnNl (pyStrip block)).length < 3) :
    translateBlock tr block = block := by
  rcases hs : splitOnNl (pyStrip block) with _ | ⟨a, _ | ⟨b2, _ | ⟨c2, r2⟩⟩⟩
  · simp [translateBlock, hs]
  · simp [translateBlock, hs]
  · simp [translateBlock, hs]
  · exfalso
    rw [hs] at hsp
    simp only [List.length_cons] at hsp
    omega

/-- C3 counterexample: with a backend failing on every call, the result is
not always identical to the input — on the input consisting of a single
newline the function returns the empty string. -/
theorem translate_srt_content_not_identity :
    translate_srt_content failingTranslator ("\n".data) ≠ ("\n".data) := by
  decide

/-- C3 (amended): with a backend failing on every call,
`translate_srt_content` returns the input unchanged for every input in
canonical SRT form (no surrounding whitespace, blocks separated by exactly
one blank line, index and timestamp lines carrying no surrounding
whitespace); in general the result differs from the input only by this
whitespace normalization, and the function is total (never raises). -/
theorem translate_srt_content_failing_id (s : List Char) (h : canonicalSrt s) :
    translate_srt_content failingTranslator s = s := by
  obtain ⟨hstrip, hjoin, hblocks⟩ := h
  unfold translate_srt_content
  by_cases hs : s = []
  · rw [if_pos hs, hs]
  · rw [if_neg hs, hstrip]
    have hmap : ∀ b ∈ splitBlocks s, translateBlock failingTranslator b = b := by
      intro b hb
      obtain ⟨hbstrip, hbl⟩ := hblocks b hb
      rcases hsp : splitOnNl b with _ | ⟨l0, ls1⟩
      · exact absurd hsp (splitOnNl_ne_nil b)
      rcases ls1 with _ | ⟨l1, ls2⟩
      · apply translateBlock_eq_short
        rw [hbstrip, hsp]
        simp
      rcases ls2 with _ | ⟨l2, rest⟩
      · apply translateBlock_eq_short
        rw [hbstrip, hsp]
        simp
      · have hsp' : splitOnNl (pyStrip b) = l0 :: l1 :: l2 :: rest := by
          rw [hbstrip]
          exact hsp
        rw [translateBlock_eq_of_lines hsp']
        have hlen : 3 ≤ (splitOnNl b).length := by
          rw [hsp]
          simp only [List.length_cons]
          omega
        obtain ⟨hl0, hl1⟩ := hbl hlen
        have h0 : (splitOnNl b).getD 0 [] = l0 := by rw [hsp]; rfl
        have h1 : (splitOnNl b).getD 1 [] = l1 := by rw [hsp]; rfl
        rw [h0] at hl0
        rw [h1] at hl1
        have htr : (if pyStrip (List.intercalate ['\n'] (l2 :: rest)) = []
            then List.intercalate ['\n'] (l2 :: rest)
            else translate_text failingTranslator
              (List.intercalate ['\n'] (l2 :: rest)))
            = List.intercalate ['\n'] (l2 :: rest) := by
          split_ifs
          · rfl
          · exact translate_text_failing _
        rw [htr, hl0, hl1]
        have hb_eq := intercalate_splitOnNl b
        rw [hsp, intercalate_cons_cons, intercalate_cons_cons] at hb_eq
        rw [← hb_eq]
        simp [List.append_assoc]
    rw [List.map_congr_left hmap, List.map_id', hjoin]

theorem translate_srt_content_failing_id_witness :
    canonicalSrt ("1\n00:00:01,000 --> 00:00:02,000\nHello".data) ∧
    translate_srt_content failingTranslator
        ("1\n00:00:01,000 --> 00:00:02,000\nHello".data)
      = ("1\n00:00:01,000 --> 00:00:02,000\nHello".data) :=
  ⟨by decide, translate_srt_content_failing_id _ (by decide)⟩

/-- C7: a block text with fewer than 3 alphabetic characters (for example
text of digits and punctuation alone) is returned unchanged and the
translation backend is never invoked — the call count is 0 for every
backend. -/
theorem translate_text_skips_nonalpha (tr : Translator) (text : List Char)
    (h : (text.filter isAsciiAlpha).length < 3) :
    translate_textC tr text = (text, 0) := by
  unfold translate_textC
  split_ifs <;> rfl

theorem translate_text_skips_nonalpha_witness :
    (("...".data).filter isAsciiAlpha).length < 3 ∧
    translate_textC (fun _ => Except.ok ("X".data)) ("...".data)
      = ("...".data, 0) :=
  ⟨by decide, translate_text_skips_nonalpha _ _ (by decide)⟩

/-! ### Helper lemmas: the source aggregator -/

theorem successUnion_cons_ok (rs : List Cand) (rest : List (Except Unit (List Cand))) :
    successUnion (Except.ok rs :: rest) = rs ++ successUnion rest := rfl

theorem successUnion_cons_error (e : Unit) (rest : List (Except Unit (List Cand))) :
    successUnion (Except.error e :: rest) = successUnion rest := rfl

theorem collectResults_cons_error (e : Unit) (rest : List (Except Unit (List Cand)))
    (acc : List Cand) :
    collectResults (Except.error e :: rest) acc = collectResults rest acc := rfl

theorem collectResults_cons_ok (rs : List Cand) (rest : List (Except Unit (List Cand)))
    (acc : List Cand) :
    collectResults (Except.ok rs :: rest) acc
      = if 5 ≤ (acc ++ rs).length then acc ++ rs
        else collectResults rest (acc ++ rs) := rfl

theorem collectResults_eq {outcomes : List (Except Unit (List Cand))} :
    ∀ acc : List Cand, acc.length + (successUnion outcomes).length ≤ 5 →
      collectResults outcomes acc = acc ++ successUnion outcomes := by
  induction outcomes with
  | nil =>
    intro acc _
    simp [collectResults, successUnion]
  | cons o rest ih =>
    intro acc hle
    cases o with
    | error e =>
      rw [collectResults_cons_error, successUnion_cons_error]
      rw [successUnion_cons_error] at hle
      exact ih acc hle
    | ok rs =>
      rw [collectResults_cons_ok, successUnion_cons_ok]
      rw [successUnion_cons_ok] at hle
      by_cases hb : 5 ≤ (acc ++ rs).length
      · rw [if_pos hb]
        have hnil : successUnion rest = [] := by
          apply List.length_eq_zero.1
          rw [List.length_append] at hb
          rw [List.length_append] at hle
          omega
        rw [hnil]
        simp
      · rw [if_neg hb]
        rw [ih (acc ++ rs) (by
          rw [List.length_append] at hle ⊢
          omega)]
        simp [List.append_assoc]

theorem collectResults_all_empty {outcomes : List (Except Unit (List Cand))}
    (h : ∀ o ∈ outcomes, o = Except.ok []) :
    ∀ acc : List Cand, collectResults outcomes acc = acc := by
  induction outcomes with
  | nil => intro acc; rfl
  | cons o rest ih =>
    intro acc
    have ho := h o (List.mem_cons_self _ _)
    subst ho
    rw [collectResults_cons_ok]
    by_cases hb : 5 ≤ (acc ++ []).length
    · rw [if_pos hb]
      simp
    · rw [if_neg hb, List.append_nil]
      exact ih (fun o' ho' => h o' (List.mem_cons_of_mem _ ho')) acc

theorem length_insertByRating (c : Cand) (l : List Cand) :
    (insertByRating c l).length = l.length + 1 := by
  induction l with
  | nil => rfl
  | cons d ds ih =>
    simp only [insertByRating]
    by_cases hcd : ratingKey c < ratingKey d
    · rw [if_pos hcd]
      simp [ih]
    · rw [if_neg hcd]
      simp

theorem length_sortByRatingDesc (l : List Cand) :
    (sortByRatingDesc l).length = l.length := by
  induction l with
  | nil => rfl
  | cons c cs ih =>
    simp only [sortByRatingDesc]
    rw [length_insertByRating, ih]
    rfl

theorem mem_insertByRating {c x : Cand} {l : List Cand}
    (h : x ∈ insertByRating c l) : x = c ∨ x ∈ l := by
  induction l with
  | nil =>
    simp only [insertByRating, List.mem_singleton] at h
    exact Or.inl h
  | cons d ds ih =>
    simp only [insertByRating] at h
    by_cases hcd : ratingKey c < ratingKey d
    · rw [if_pos hcd] at h
      rcases List.mem_cons.1 h with rfl | h2
      · exact Or.inr (List.mem_cons_self _ _)
      · rcases ih h2 with h3 | h4
        · exact Or.inl h3
        · exact Or.inr (List.mem_cons_of_mem _ h4)
    · rw [if_neg hcd] at h
      rcases List.mem_cons.1 h with rfl | h2
      · exact Or.inl rfl
      · exact Or.inr h2

theorem insertByRating_sorted {c : Cand} {l : List Cand}
    (h : List.Pairwise (fun a b => ratingKey b ≤ ratingKey a) l) :
    List.Pairwise (fun a b => ratingKey b ≤ ratingKey a) (insertByRating c l) := by
  induction l with
  | nil => simp [insertByRating]
  | cons d ds ih =>
    simp only [insertByRating]
    by_cases hcd : ratingKey c < ratingKey d
    · rw [if_pos hcd]
      rcases List.pairwise_cons.1 h with ⟨hd, hds⟩
      refine List.pairwise_cons.2 ⟨?_, ih hds⟩
      intro x hx
      rcases mem_insertByRating hx with rfl | h2
      · exact le_of_lt hcd
      · exact hd x h2
    · rw [if_neg hcd]
      rcases List.pairwise_cons.1 h with ⟨hd, hds⟩
      refine List.pairwise_cons.2 ⟨?_, h⟩
      intro x hx
      rcases List.mem_cons.1 hx with rfl | h2
      · exact le_of_not_lt hcd
      · exact le_trans (hd x h2) (le_of_not_lt hcd)

theorem sortByRatingDesc_sorted (l : List Cand) :
    List.Pairwise (fun a b => ratingKey b ≤ ratingKey a) (sortByRatingDesc l) := by
  induction l with
  | nil => simp [sortByRatingDesc]
  | cons c cs ih =>
    simp only [sortByRatingDesc]
    exact insertByRating_sorted ih

theorem filter_insertByRating (r : ℚ) (c : Cand) (l : List Cand) :
    (insertByRating c l).filter (fun d => decide (ratingKey d = r))
      = if ratingKey c = r
        then c :: l.filter (fun d => decide (ratingKey d = r))
        else l.filter (fun d => decide (ratingKey d = r)) := by
  induction l with
  | nil =>
    by_cases hc : ratingKey c = r
    · rw [if_pos hc]
      simp [insertByRating, List.filter_cons, hc]
    · rw [if_neg hc]
      simp [insertByRating, List.filter_cons, hc]
  | cons d ds ih =>
    simp only [insertByRating]
    by_cases hcd : ratingKey c < ratingKey d
    · rw [if_pos hcd]
      by_cases hc : ratingKey c = r
      · by_cases hd : ratingKey d = r
        · exfalso
          rw [hc, hd] at hcd
          exact lt_irrefl r hcd
        · rw [if_pos hc, List.filter_cons, if_neg (by simp [hd]), ih, if_pos hc,
            List.filter_cons, if_neg (by simp [hd])]
      · by_cases hd : ratingKey d = r
        · rw [if_neg hc, List.filter_cons, if_pos (by simp [hd]), ih, if_neg hc,
            List.filter_cons, if_pos (by simp [hd])]
        · rw [if_neg hc, List.filter_cons, if_neg (by simp [hd]), ih, if_neg hc,
            List.filter_cons, if_neg (by simp [hd])]
    · rw [if_neg hcd]
      by_cases hc : ratingKey c = r
      · rw [if_pos hc, List.filter_cons, if_pos (by simp [hc])]
      · rw [if_neg hc, List.filter_cons, if_neg (by simp [hc])]

theorem filter_sortByRatingDesc (r : ℚ) (l : List Cand) :
    (sortByRatingDesc l).filter (fun d => decide (ratingKey d = r))
      = l.filter (fun d => decide (ratingKey d = r)) := by
  induction l with
  | nil => rfl
  | cons c cs ih =>
    simp only [sortByRatingDesc]
    rw [filter_insertByRating]
    by_cases hc : ratingKey c = r
    · rw [if_pos hc, ih, List.filter_cons, if_pos (by simp [hc])]
    · rw [if_neg hc, ih, List.filter_cons, if_neg (by simp [hc])]

/-! ### Claim theorems: the source aggregator -/

/-- C4 counterexample: two adapters together return 6 candidates; the
aggregator stops collecting at `max_results = 5` and truncates the sorted
result to 5, so its output is not the full union sorted by rating. -/
theorem search_all_not_union :
    search_all [Except.ok [⟨"A".data, "u".data, "t".data, "en".data, some 6⟩,
                           ⟨"A".data, "u".data, "t".data, "en".data, some 5⟩,
                           ⟨"A".data, "u".data, "t".data, "en".data, some 4⟩],
                Except.ok [⟨"B".data, "u".data, "t".data, "en".data, some 3⟩,
                           ⟨"B".data, "u".data, "t".data, "en".data, some 2⟩,
                           ⟨"B".data, "u".data, "t".data, "en".data, some 1⟩]]
      ≠ sortByRatingDesc (successUnion
          [Except.ok [⟨"A".data, "u".data, "t".data, "en".data, some 6⟩,
                      ⟨"A".data, "u".data, "t".data, "en".data, some 5⟩,
                      ⟨"A".data, "u".data, "t".data, "en".data, some 4⟩],
           Except.ok [⟨"B".data, "u".data, "t".data, "en".data, some 3⟩,
                      ⟨"B".data, "u".data, "t".data, "en".data, some 2⟩,
                      ⟨"B".data, "u".data, "t".data, "en".data, some 1⟩]]) := by
  decide

/-- C4 (amended): whenever the successful adapters return at most
`max_results = 5` candidates in total, the aggregator's result is exactly
their union in completion order, stably sorted by descending rating: the
result is that sorted union, it is pairwise descending in the rating key,
and for every rating value the candidates carrying it appear in exactly
their arrival order.  With more than 5 candidates the collection stops
early and the sorted result is truncated to 5. -/
theorem search_all_union_sorted (outcomes : List (Except Unit (List Cand)))
    (h : (successUnion outcomes).length ≤ 5) :
    search_all outcomes = sortByRatingDesc (successUnion outcomes) ∧
    List.Pairwise (fun a b => ratingKey b ≤ ratingKey a) (search_all outcomes) ∧
    (∀ r : ℚ, (search_all outcomes).filter (fun d => decide (ratingKey d = r))
      = (successUnion outcomes).filter (fun d => decide (ratingKey d = r))) := by
  have hcoll : collectResults outcomes [] = successUnion outcomes := by
    have hc := @collectResults_eq outcomes [] (by simpa using h)
    simpa using hc
  have hmain : search_all outcomes = sortByRatingDesc (successUnion outcomes) := by
    unfold search_all
    rw [hcoll]
    apply List.take_of_length_le
    rw [length_sortByRatingDesc]
    exact h
  refine ⟨hmain, ?_, ?_⟩
  · rw [hmain]
    exact sortByRatingDesc_sorted _
  · intro r
    rw [hmain]
    exact filter_sortByRatingDesc r _

theorem search_all_union_sorted_witness :
    (successUnion [Except.ok [⟨"A".data, "u".data, "t".data, "en".data, some 1⟩,
                              ⟨"A".data, "u".data, "t".data, "en".data, some 2⟩],
                   Except.error ()]).length ≤ 5 ∧
    search_all [Except.ok [⟨"A".data, "u".data, "t".data, "en".data, some 1⟩,
                           ⟨"A".data, "u".data, "t".data, "en".data, some 2⟩],
                Except.error ()]
      = sortByRatingDesc (successUnion
          [Except.ok [⟨"A".data, "u".data, "t".data, "en".data, some 1⟩,
                      ⟨"A".data, "u".data, "t".data, "en".data, some 2⟩],
           Except.error ()]) :=
  ⟨by decide, (search_all_union_sorted _ (by decide)).1⟩

theorem getFirstWalk_eq (registered : List Char → Bool)
    (dl : List Char → Option (List Char)) :
    ∀ cands : List Cand, (∀ c ∈ cands, c.url ≠ []) →
      getFirstWalk registered dl cands
        = (cands.filterMap (usableDownload dl)).head? := by
  intro cands
  induction cands with
  | nil =>
    intro _
    rfl
  | cons r rest ih =>
    intro h
    have hurl : r.url ≠ [] := h r (List.mem_cons_self _ _)
    have htail : ∀ c ∈ rest, c.url ≠ [] :=
      fun c hc => h c (List.mem_cons_of_mem _ hc)
    unfold getFirstWalk
    rw [if_neg hurl]
    rcases hd : dl r.url with _ | content
    · have hu : usableDownload dl r = none := by simp [usableDownload, hd]
      by_cases hreg : registered r.source = true
      · simp only [hd, if_pos hreg]
        rw [List.filterMap_cons, hu, ih htail]
      · simp only [hd, if_neg hreg]
        rw [List.filterMap_cons, hu, ih htail]
    · by_cases hlen : 100 < content.length
      · have hu : usableDownload dl r = some content := by
          simp [usableDownload, hd, hlen]
        by_cases hreg : registered r.source = true
        · simp only [hd, if_pos hreg, if_pos hlen]
          rw [List.filterMap_cons, hu]
          rfl
        · simp only [hd, if_neg hreg, if_pos hlen]
          rw [List.filterMap_cons, hu]
          rfl
      · have hu : usableDownload dl r = none := by
          simp [usableDownload, hd, hlen]
        by_cases hreg : registered r.source = true
        · simp only [hd, if_pos hreg, if_neg hlen]
          rw [List.filterMap_cons, hu, ih htail]
        · simp only [hd, if_neg hreg, if_neg hlen]
          rw [List.filterMap_cons, hu, ih htail]

/-- C8: `get_first_subtitle` walks the ranked candidates in order and
returns the first downloaded content longer than 100 characters, skipping
candidates whose download fails or yields 100 characters or fewer — it is
the head of the per-candidate usable downloads, in ranked order.  (Every
registered source shares the one base `download` implementation, so the
named-source download and the fallback download of a candidate coincide.) -/
theorem get_first_subtitle_first_usable (registered : List Char → Bool)
    (dl : List Char → Option (List Char))
    (outcomes : List (Except Unit (List Cand)))
    (h : ∀ c ∈ search_all outcomes, c.url ≠ []) :
    get_first_subtitle registered dl outcomes
      = ((search_all outcomes).filterMap (usableDownload dl)).head? :=
  getFirstWalk_eq registered dl (search_all outcomes) h

theorem get_first_subtitle_first_usable_witness :
    get_first_subtitle (fun _ => true) (fun _ => some (List.replicate 150 'x'))
        [Except.ok [⟨"A".data, "u1".data, "t".data, "en".data, some 1⟩]]
      = ((search_all [Except.ok [⟨"A".data, "u1".data, "t".data, "en".data,
            some 1⟩]]).filterMap
          (usableDownload (fun _ => some (List.replicate 150 'x')))).head? :=
  get_first_subtitle_first_usable _ _ _ (by decide)

/-- C6: when every adapter completes with no candidates, the search result
is empty, `get_first_subtitle` returns `none` (it is a total function, so
no exception), and the cache step stores nothing: a request whose English
lookup produced nothing leaves the cache untouched, and more generally a
write can only happen when the English lookup succeeded (after which the
stored value is the translation or the English fallback). -/
theorem get_first_subtitle_empty_no_cache (registered : List Char → Bool)
    (dl : List Char → Option (List Char))
    (outcomes : List (Except Unit (List Cand)))
    (hout : ∀ o ∈ outcomes, o = Except.ok []) :
    get_first_subtitle registered dl outcomes = none ∧
    (∀ (cache : SubCache) (key : List Char) (tr : Option (List Char)),
      serveCacheStep cache key none tr = cache) ∧
    (∀ (cache : SubCache) (key : List Char) (eng tr : Option (List Char)),
      serveCacheStep cache key eng tr ≠ cache → ∃ e, eng = some e) := by
  refine ⟨?_, ?_, ?_⟩
  · have hsearch : search_all outcomes = [] := by
      unfold search_all
      rw [collectResults_all_empty hout []]
      rfl
    unfold get_first_subtitle
    rw [hsearch]
    rfl
  · intro cache key tr
    unfold serveCacheStep
    split_ifs <;> rfl
  · intro cache key eng tr hne
    cases eng with
    | none =>
      exfalso
      apply hne
      unfold serveCacheStep
      split_ifs <;> rfl
    | some e => exact ⟨e, rfl⟩

theorem get_first_subtitle_empty_no_cache_witness :
    get_first_subtitle (fun _ => true) (fun _ => some ("x".data))
        [Except.ok [], Except.ok []] = none ∧
    serveCacheStep [] ("k".data) none none = [] :=
  ⟨(get_first_subtitle_empty_no_cache (fun _ => true) (fun _ => some ("x".data))
      [Except.ok [], Except.ok []] (by
        intro o ho
        rcases List.mem_cons.1 ho with rfl | ho2
        · rfl
        · rcases List.mem_cons.1 ho2 with rfl | ho3
          · rfl
          · exact absurd ho3 (List.not_mem_nil o))).1,
   (get_first_subtitle_empty_no_cache (fun _ => true) (fun _ => some ("x".data))
      [Except.ok [], Except.ok []] (by
        intro o ho
        rcases List.mem_cons.1 ho with rfl | ho2
        · rfl
        · rcases List.mem_cons.1 ho2 with rfl | ho3
          · rfl
          · exact absurd ho3 (List.not_mem_nil o))).2.1 [] ("k".data) none⟩

/-! ### Claim theorems: the subtitle cache -/

theorem serveCacheStep_insert {cache : SubCache} {key eng : List Char}
    (hlook : cacheLookup cache key = none)
    (hany : cache.any (fun kv => decide (kv.1 = key)) = false) :
    serveCacheStep cache key (some eng) none = cache ++ [(key, eng)] := by
  unfold serveCacheStep
  rw [if_neg (by rw [hlook]; simp)]
  show dictInsert cache key eng = cache ++ [(key, eng)]
  unfold dictInsert
  rw [if_neg (by rw [hany]; simp)]

theorem cacheKeysAfter (n : Nat) :
    (((List.range n).foldl
      (fun c i => serveCacheStep c (List.replicate (i + 1) 'a') (some ['e']) none)
      []).map Prod.fst)
    = (List.range n).map (fun i => List.replicate (i + 1) 'a') := by
  induction n with
  | zero => rfl
  | succ n ih =>
    rw [List.range_succ, List.foldl_append, List.map_append]
    have hnotin : ∀ kv ∈ (List.range n).foldl
        (fun c i => serveCacheStep c (List.replicate (i + 1) 'a') (some ['e']) none)
        [], kv.1 ≠ List.replicate (n + 1) 'a' := by
      intro kv hkv heq
      have hmem : kv.1 ∈ ((List.range n).foldl
          (fun c i => serveCacheStep c (List.replicate (i + 1) 'a') (some ['e']) none)
          []).map Prod.fst := List.mem_map_of_mem _ hkv
      rw [ih, List.mem_map] at hmem
      obtain ⟨i, hi, hkey⟩ := hmem
      rw [← hkey] at heq
      have hlen := congrArg List.length heq
      simp only [List.length_replicate] at hlen
      rw [List.mem_range] at hi
      omega
    have hlook : cacheLookup ((List.range n).foldl
        (fun c i => serveCacheStep c (List.replicate (i + 1) 'a') (some ['e']) none)
        []) (List.replicate (n + 1) 'a') = none := by
      unfold cacheLookup
      have hf : List.find? (fun kv => decide (kv.1 = List.replicate (n + 1) 'a'))
          ((List.range n).foldl
            (fun c i => serveCacheStep c (List.replicate (i + 1) 'a') (some ['e']) none)
            []) = none := by
        rw [List.find?_eq_none]
        intro kv hkv
        simp only [decide_eq_true_eq]
        exact hnotin kv hkv
      rw [hf]
      rfl
    have hany : List.any ((List.range n).foldl
        (fun c i => serveCacheStep c (List.replicate (i + 1) 'a') (some ['e']) none)
        []) (fun kv => decide (kv.1 = List.replicate (n + 1) 'a')) = false := by
      rw [List.any_eq_false]
      intro kv hkv
      simp only [decide_eq_true_eq]
      exact hnotin kv hkv
    have hstep : serveCacheStep ((List.range n).foldl
        (fun c i => serveCacheStep c (List.replicate (i + 1) 'a') (some ['e']) none)
        []) (List.replicate (n + 1) 'a') (some ['e']) none
        = ((List.range n).foldl
            (fun c i => serveCacheStep c (List.replicate (i + 1) 'a') (some ['e']) none)
            []) ++ [(List.replicate (n + 1) 'a', ['e'])] :=
      serveCacheStep_insert hlook hany
    simp only [List.foldl_cons, List.foldl_nil]
    rw [hstep, List.map_append, ih]
    rfl

theorem cacheSizeAfter (n : Nat) :
    ((List.range n).foldl
      (fun c i => serveCacheStep c (List.replicate (i + 1) 'a') (some ['e']) none)
      []).length = n := by
  have h := congrArg List.length (cacheKeysAfter n)
  simpa using h

theorem dictInsert_length (cache : SubCache) (k v : List Char) :
    cache.length ≤ (dictInsert cache k v).length := by
  unfold dictInsert
  split_ifs
  · rw [List.length_map]
  · rw [List.length_append]
    simp

theorem dictInsert_keys (cache : SubCache) (k v : List Char) :
    ∀ kv ∈ cache, kv.1 ∈ (dictInsert cache k v).map Prod.fst := by
  intro kv hkv
  unfold dictInsert
  split_ifs with hany
  · rw [List.map_map]
    apply List.mem_map.2
    refine ⟨kv, hkv, ?_⟩
    by_cases hk : kv.1 = k
    · show Prod.fst (if kv.1 = k then (k, v) else kv) = kv.1
      rw [if_pos hk]
      exact hk.symm
    · show Prod.fst (if kv.1 = k then (k, v) else kv) = kv.1
      rw [if_neg hk]
  · rw [List.map_append]
    exact List.mem_append_left _ (List.mem_map_of_mem _ hkv)

/-- C2 counterexample: `serve_translated_with_config` has no cache-size
check and no clearing logic; after 101 requests with distinct keys the
cache holds 101 entries, exceeding the claimed 100-entry threshold. -/
theorem subtitle_cache_exceeds_threshold :
    100 < ((List.range 101).foldl
      (fun c i => serveCacheStep c (List.replicate (i + 1) 'a') (some ['e']) none)
      []).length := by
  rw [cacheSizeAfter 101]
  omega

/-- C2 (amended): the cache in src/app.py is never cleared: one request's
cache step never removes entries (its size is nondecreasing and every
existing key survives), and a run of requests with distinct keys grows the
cache without bound — after n such requests it holds exactly n entries, for
every n. -/
theorem subtitle_cache_never_cleared (cache : SubCache) (key : List Char)
    (eng tr : Option (List Char)) :
    cache.length ≤ (serveCacheStep cache key eng tr).length ∧
    (∀ kv ∈ cache, kv.1 ∈ (serveCacheStep cache key eng tr).map Prod.fst) ∧
    (∀ n : Nat, ((List.range n).foldl
      (fun c i => serveCacheStep c (List.replicate (i + 1) 'a') (some ['e']) none)
      []).length = n) := by
  refine ⟨?_, ?_, fun n => cacheSizeAfter n⟩
  · unfold serveCacheStep
    split_ifs
    · exact le_rfl
    · cases eng with
      | none => exact le_rfl
      | some e => exact dictInsert_length cache key _
  · intro kv hkv
    unfold serveCacheStep
    split_ifs
    · exact List.mem_map_of_mem _ hkv
    · cases eng with
      | none => exact List.mem_map_of_mem _ hkv
      | some e => exact dictInsert_keys cache key _ kv hkv

theorem subtitle_cache_never_cleared_witness :
    ([(("k".data), ("v".data))] : SubCache).length
      ≤ (serveCacheStep [(("k".data), ("v".data))] ("k2".data)
          (some ("e".data)) none).length ∧
    ("k".data) ∈ (serveCacheStep [(("k".data), ("v".data))] ("k2".data)
        (some ("e".data)) none).map Prod.fst :=
  ⟨(subtitle_cache_never_cleared [(("k".data), ("v".data))] ("k2".data)
      (some ("e".data)) none).1,
   (subtitle_cache_never_cleared [(("k".data), ("v".data))] ("k2".data)
      (some ("e".data)) none).2.1 (("k".data), ("v".data)) (by decide)⟩
